import Mathlib

/-!
Verification of the real-time spectral visualization engine of
`src/vst3/src/gui/spectrum_view.cpp` (`SnesSpc::SpectrumView`).

The engine is shallowly embedded:

* machine `float` arithmetic is modelled by exact real arithmetic (`ℝ`, `ℂ`),
  as the claims require ("over exact real/complex arithmetic");
* `std::vector` members are `List ℝ` fields of a `SpectrumState` structure,
  with `std::vector::resize(n, v)` embedded as take-and-pad (`resizeFill`);
* the in-place FFT working array `fftBuffer_` is modelled as a function
  `ℕ → ℂ`, with the in-place butterfly loops embedded as left folds of
  `Function.update`-based swaps and butterflies over the exact index lists
  the C++ loops traverse.

Sections follow the source: bit manipulation helpers, the FFT kernels, the
engine state machine, then the theorems for the individual claims.
-/

set_option maxRecDepth 8000

namespace SpectrumView

/-! ## Bit manipulation (`SpectrumView::reverseBits` and the `bits` loops)

`reverseBits(n, bits)` runs `bits` iterations of
`result = (result << 1) | (n & 1); n >>= 1;`.  The `bits` count used by the
constructor and by `fft` is computed by
`for (size_t temp = n; temp > 1; temp >>= 1) bits++;`, embedded below as a
fuel-based recursion (`fftBitsAux n n`): the fuel `n` dominates the number of
halvings, so the recursion is structural and computable. -/

def reverseBitsAux : ℕ → ℕ → ℕ → ℕ
  | 0, _, acc => acc
  | b + 1, n, acc => reverseBitsAux b (n / 2) (2 * acc + n % 2)

def reverseBits (n bits : ℕ) : ℕ :=
  reverseBitsAux bits n 0

def fftBitsAux : ℕ → ℕ → ℕ
  | 0, _ => 0
  | fuel + 1, n => if n ≤ 1 then 0 else fftBitsAux fuel (n / 2) + 1

def fftBits (n : ℕ) : ℕ := fftBitsAux n n

/-- The constructor's bit-reversal lookup table:
`bitReverseLUT_[i] = reverseBits(i, bits)` for `i < n`. -/
def bitReverseLUT (n : ℕ) : List ℕ :=
  (List.range n).map (fun i => reverseBits i (fftBits n))

/-- Mathematical description of `reverseBits`: peel the least significant bit
and send it to the top. -/
def revSpec : ℕ → ℕ → ℕ
  | 0, _ => 0
  | b + 1, n => n % 2 * 2 ^ b + revSpec b (n / 2)

theorem reverseBitsAux_eq (b : ℕ) :
    ∀ n acc, reverseBitsAux b n acc = acc * 2 ^ b + revSpec b n := by
  induction b with
  | zero => intro n acc; simp [reverseBitsAux, revSpec]
  | succ b ih =>
    intro n acc
    rw [reverseBitsAux, ih, revSpec]
    ring

theorem reverseBits_eq_revSpec (n b : ℕ) : reverseBits n b = revSpec b n := by
  simp [reverseBits, reverseBitsAux_eq]

theorem revSpec_lt (b : ℕ) : ∀ n, revSpec b n < 2 ^ b := by
  induction b with
  | zero => intro n; simp [revSpec]
  | succ b ih =>
    intro n
    have h1 : n % 2 ≤ 1 := by omega
    have h2 : revSpec b (n / 2) < 2 ^ b := ih (n / 2)
    calc n % 2 * 2 ^ b + revSpec b (n / 2) < n % 2 * 2 ^ b + 2 ^ b := by omega
      _ ≤ 1 * 2 ^ b + 2 ^ b := by
            have := Nat.mul_le_mul_right (2 ^ b) h1
            omega
      _ = 2 ^ (b + 1) := by ring

theorem revSpec_two_mul (b n : ℕ) : revSpec (b + 1) (2 * n) = revSpec b n := by
  have h1 : 2 * n % 2 = 0 := by omega
  have h2 : 2 * n / 2 = n := by omega
  simp [revSpec, h1, h2]

theorem revSpec_two_mul_add_one (b n : ℕ) :
    revSpec (b + 1) (2 * n + 1) = 2 ^ b + revSpec b n := by
  have h1 : (2 * n + 1) % 2 = 1 := by omega
  have h2 : (2 * n + 1) / 2 = n := by omega
  simp [revSpec, h1, h2]

/-- Appending a most significant bit `c` lands it at the least significant
position of the reversal. -/
theorem revSpec_msb (b : ℕ) :
    ∀ n c, n < 2 ^ b → c ≤ 1 → revSpec (b + 1) (n + c * 2 ^ b) = 2 * revSpec b n + c := by
  induction b with
  | zero =>
    intro n c hn hc
    interval_cases n
    interval_cases c <;> simp [revSpec]
  | succ b ih =>
    intro n c hn hc
    have hmod : (n + c * 2 ^ (b + 1)) % 2 = n % 2 := by
      have : c * 2 ^ (b + 1) = 2 * (c * 2 ^ b) := by ring
      omega
    have hdiv : (n + c * 2 ^ (b + 1)) / 2 = n / 2 + c * 2 ^ b := by
      have : c * 2 ^ (b + 1) = 2 * (c * 2 ^ b) := by ring
      omega
    have hn2 : n / 2 < 2 ^ b := by
      have : 2 ^ (b + 1) = 2 * 2 ^ b := by ring
      omega
    rw [revSpec, hmod, hdiv, ih (n / 2) c hn2 hc, revSpec]
    ring

theorem revSpec_revSpec (b : ℕ) : ∀ n, n < 2 ^ b → revSpec b (revSpec b n) = n := by
  induction b with
  | zero => intro n hn; interval_cases n; simp [revSpec]
  | succ b ih =>
    intro n hn
    have hn2 : n / 2 < 2 ^ b := by
      have : 2 ^ (b + 1) = 2 * 2 ^ b := by ring
      omega
    have hr : revSpec b (n / 2) < 2 ^ b := revSpec_lt b (n / 2)
    have hmod : n % 2 ≤ 1 := by omega
    have hunfold : revSpec (b + 1) n = revSpec b (n / 2) + n % 2 * 2 ^ b := by
      rw [revSpec]; ring
    rw [hunfold, revSpec_msb b (revSpec b (n / 2)) (n % 2) hr hmod, ih (n / 2) hn2]
    omega

theorem reverseBits_lt (n b : ℕ) : reverseBits n b < 2 ^ b := by
  rw [reverseBits_eq_revSpec]; exact revSpec_lt b n

theorem reverseBits_reverseBits (n b : ℕ) (h : n < 2 ^ b) :
    reverseBits (reverseBits n b) b = n := by
  rw [reverseBits_eq_revSpec, reverseBits_eq_revSpec]
  exact revSpec_revSpec b n h

theorem fftBitsAux_fuel (f1 : ℕ) :
    ∀ f2 n, n ≤ f1 → n ≤ f2 → fftBitsAux f1 n = fftBitsAux f2 n := by
  induction f1 with
  | zero =>
    intro f2 n h1 _
    have : n = 0 := by omega
    subst this
    cases f2 with
    | zero => rfl
    | succ f2 => simp [fftBitsAux]
  | succ f1 ih =>
    intro f2 n h1 h2
    cases f2 with
    | zero =>
      have : n = 0 := by omega
      subst this
      simp [fftBitsAux]
    | succ f2 =>
      by_cases hn : n ≤ 1
      · simp [fftBitsAux, hn]
      · have hhalf1 : n / 2 ≤ f1 := by omega
        have hhalf2 : n / 2 ≤ f2 := by omega
        simp only [fftBitsAux, if_neg hn]
        rw [ih f2 (n / 2) hhalf1 hhalf2]

theorem fftBits_two_pow (m : ℕ) : fftBits (2 ^ m) = m := by
  induction m with
  | zero => rfl
  | succ m ih =>
    have h2 : ¬ 2 ^ (m + 1) ≤ 1 := by
      have : 2 ^ (m + 1) ≥ 2 := by
        have := Nat.one_le_two_pow (n := m)
        have : 2 ^ (m + 1) = 2 * 2 ^ m := by ring
        omega
      omega
    obtain ⟨f, hf⟩ : ∃ f, 2 ^ (m + 1) = f + 1 := ⟨2 ^ (m + 1) - 1, by omega⟩
    have hdiv : 2 ^ (m + 1) / 2 = 2 ^ m := by
      have : 2 ^ (m + 1) = 2 * 2 ^ m := by ring
      omega
    have step : fftBits (2 ^ (m + 1)) = fftBitsAux f (2 ^ m) + 1 := by
      rw [fftBits, hf, fftBitsAux]
      rw [← hf, if_neg h2, hdiv]
    rw [step, fftBitsAux_fuel f (2 ^ m) (2 ^ m) (by omega) (le_refl _)]
    rw [show fftBitsAux (2 ^ m) (2 ^ m) = fftBits (2 ^ m) from rfl, ih]

/-- C8. The precomputed bit-reversal table for transform size `N = 8`
(`reverseBits` applied to `0..7` with `3` bits, as built by the constructor
loop) is exactly the sequence `[0, 4, 2, 6, 1, 5, 3, 7]`. -/
theorem bitReverseLUT_eight : bitReverseLUT 8 = [0, 4, 2, 6, 1, 5, 3, 7] := by
  decide

/-! ## List access helpers -/

theorem getD_map_range {β : Type} (f : ℕ → β) (K s : ℕ) (d : β) (h : s < K) :
    ((List.range K).map f).getD s d = f s := by
  simp [List.getD_eq_getElem?_getD, List.getElem?_map, List.getElem?_range h]

theorem getD_set_eq (l : List ℝ) (i : ℕ) (x : ℝ) (h : i < l.length) :
    (l.set i x).getD i 0 = x := by
  simp [List.getD_eq_getElem?_getD, List.getElem?_set_self', List.getElem?_eq_getElem h]

theorem getD_set_ne (l : List ℝ) (i k : ℕ) (x : ℝ) (h : i ≠ k) :
    (l.set i x).getD k 0 = l.getD k 0 := by
  simp [List.getD_eq_getElem?_getD, List.getElem?_set_ne h]

theorem getD_replicate (n k : ℕ) (a : ℝ) :
    (List.replicate n a).getD k 0 = if k < n then a else 0 := by
  by_cases h : k < n
  · simp [List.getD_eq_getElem?_getD, List.getElem?_replicate, h]
  · simp only [if_neg h]
    exact List.getD_eq_default _ _ (by simpa using by omega)

/-! ## FFT kernels (`fftOptimized`, `fft`, `precomputeTwiddleFactors`)

The in-place complex array `data` is a function `ℕ → ℂ`; an assignment
`data[p] = v` is `Function.update d p v`.  Loops become left folds over the
index lists the C++ `for` loops traverse: the block loop
`for (i = 0; i < n; i += len)` visits `i = 0, len, 2·len, …` — i.e.
`(List.range (n / len)).map (· * len)` when `len` divides `n` (always the
case here, `n` and `len` being powers of two) — and the stage loop
`for (len = 2; len <= n; len *= 2, stage++)` visits `len = 2^(stage+1)` for
`stage = 0, …, fftBits n - 1`. -/

/-- One butterfly: `u = d[p]; t = w·d[q]; d[p] = u+t; d[q] = u−t`. -/
noncomputable def butterfly (d : ℕ → ℂ) (p q : ℕ) (w : ℂ) : ℕ → ℂ :=
  let u := d p
  let t := w * d q
  Function.update (Function.update d p (u + t)) q (u - t)

/-- The inner loop `for (j = 0; j < cnt; j++)` of one block starting at `i`,
with butterfly pairs `(i+j, i+j+halfLen)` and twiddle accessor `f`. -/
noncomputable def innerPass (i halfLen : ℕ) (f : ℕ → ℂ) (cnt : ℕ) (d : ℕ → ℂ) : ℕ → ℂ :=
  (List.range cnt).foldl (fun d j => butterfly d (i + j) (i + j + halfLen) (f j)) d

/-- The block loop `for (i = 0; i < n; i += len)` of one stage. -/
noncomputable def blockPass (len : ℕ) (f : ℕ → ℂ) (n : ℕ) (d : ℕ → ℂ) : ℕ → ℂ :=
  ((List.range (n / len)).map (· * len)).foldl
    (fun d i => innerPass i (len / 2) f (len / 2) d) d

/-- The bit-reversal permutation loop of `fftOptimized`, reading the
precomputed table: `j = lut[i]; if (i < j) swap(data[i], data[j])`. -/
noncomputable def bitRevPermute (n : ℕ) (lut : List ℕ) (a : ℕ → ℂ) : ℕ → ℂ :=
  (List.range n).foldl (fun d i =>
    let j := lut.getD i 0
    if i < j then Function.update (Function.update d i (d j)) j (d i) else d) a

/-- `SpectrumView::precomputeTwiddleFactors`: for each stage length
`len = 2, 4, …, n` a table of `len/2` factors
`(cos(angle·j), sin(angle·j))` with `angle = −2π/len`. -/
noncomputable def precomputeTwiddleFactors (n : ℕ) : List (List ℂ) :=
  (List.range (fftBits n)).map (fun stage =>
    let len : ℕ := 2 ^ (stage + 1)
    let angle : ℝ := -2 * Real.pi / len
    (List.range (len / 2)).map
      (fun (j : ℕ) => (⟨Real.cos (angle * j), Real.sin (angle * j)⟩ : ℂ)))

/-- `SpectrumView::fftOptimized`: bit-reversal permutation via the lookup
table, then the Cooley–Tukey stages with precomputed twiddle factors. -/
noncomputable def fftOptimized (n : ℕ) (lut : List ℕ) (table : List (List ℂ)) (a : ℕ → ℂ) :
    ℕ → ℂ :=
  if n ≤ 1 then a
  else
    (List.range (fftBits n)).foldl
      (fun d stage =>
        blockPass (2 ^ (stage + 1)) (fun j => (table.getD stage []).getD j 0) n d)
      (bitRevPermute n lut a)

/-- `SpectrumView::fft` (the naive variant): recomputes the bit-reversed
indices and accumulates the per-stage twiddle factor `w` by repeated
multiplication with `wn = (cos(−2π/len), sin(−2π/len))`. -/
noncomputable def fft (n : ℕ) (a : ℕ → ℂ) : ℕ → ℂ :=
  if n ≤ 1 then a
  else
    let bits := fftBits n
    let d0 := (List.range n).foldl (fun d i =>
      let j := reverseBits i bits
      if i < j then Function.update (Function.update d i (d j)) j (d i) else d) a
    (List.range bits).foldl
      (fun d stage =>
        let len : ℕ := 2 ^ (stage + 1)
        let angle : ℝ := -2 * Real.pi / len
        let wn : ℂ := ⟨Real.cos angle, Real.sin angle⟩
        ((List.range (n / len)).map (· * len)).foldl
          (fun d i =>
            ((List.range (len / 2)).foldl
              (fun (p : (ℕ → ℂ) × ℂ) j =>
                (butterfly p.1 (i + j) (i + j + len / 2) p.2, p.2 * wn))
              (d, 1)).1)
          d)
      d0

/-- The exact twiddle value `exp(−2π·k/L · i)` as a complex exponential. -/
noncomputable def twFn (L k : ℕ) : ℂ :=
  Complex.exp ((((-2) * Real.pi * k / L : ℝ) : ℂ) * Complex.I)

/-- The discrete Fourier transform as the specification states it:
output bin `k` is `∑ n, input[n]·exp(−2πi·k·n/N)`. -/
noncomputable def dftSpec (N : ℕ) (x : ℕ → ℂ) (k : ℕ) : ℂ :=
  ∑ t ∈ Finset.range N, x t * Complex.exp ((((-2) * Real.pi * k * t / N : ℝ) : ℂ) * Complex.I)

/-! ## Engine state (`SpectrumView` data members)

`FFT_SIZE = 1024` is fixed.  GUI-only members (colors, `showPeaks_`) and the
transient `fftBuffer_` scratch array (recomputed from scratch inside every
`computeFFT` call before being read) do not influence the analysis pipeline
and are left out of the state; the mutex and the `invalid()` dirty-marking
are concurrency/rendering effects outside the shallow embedding. -/

structure SpectrumState where
  sampleBuffer : List ℝ
  sampleWriteIndex : ℕ
  magnitudes : List ℝ
  bandValues : List ℝ
  peakValues : List ℝ
  peakDecay : List ℝ
  numBands : ℕ
  decayRate : ℝ
  smoothing : ℝ
  logScale : Bool

/-- The construction state: all buffers zero-filled at their fixed sizes,
`numBands_ = 32`, `decayRate_ = 0.05`, `smoothing_ = 0.7`, `logScale_ = true`. -/
noncomputable def initState : SpectrumState where
  sampleBuffer := List.replicate 1024 0
  sampleWriteIndex := 0
  magnitudes := List.replicate 512 0
  bandValues := List.replicate 32 0
  peakValues := List.replicate 32 0
  peakDecay := List.replicate 32 0
  numBands := 32
  decayRate := 0.05
  smoothing := 0.7
  logScale := true

/-- `setNumBands`: `numBands_ = std::clamp(bands, 8, 128)`. -/
noncomputable def setNumBands (s : SpectrumState) (bands : ℕ) : SpectrumState :=
  { s with numBands := min (max bands 8) 128 }

/-- `setDecayRate`: `decayRate_ = std::clamp(rate, 0.01f, 1.0f)`. -/
noncomputable def setDecayRate (s : SpectrumState) (rate : ℝ) : SpectrumState :=
  { s with decayRate := min (max rate 0.01) 1 }

/-- `setSmoothing`: `smoothing_ = std::clamp(smooth, 0.0f, 0.99f)`. -/
noncomputable def setSmoothing (s : SpectrumState) (smooth : ℝ) : SpectrumState :=
  { s with smoothing := min (max smooth 0) 0.99 }

/-- `setLogScale`. -/
noncomputable def setLogScale (s : SpectrumState) (log : Bool) : SpectrumState :=
  { s with logScale := log }

/-- The write loop of `pushSamples`: each sample is written at the cursor and
the cursor advances modulo `FFT_SIZE`. -/
noncomputable def ingest (s : SpectrumState) (samples : List ℝ) : SpectrumState :=
  samples.foldl
    (fun st x =>
      { st with
        sampleBuffer := st.sampleBuffer.set st.sampleWriteIndex x
        sampleWriteIndex := (st.sampleWriteIndex + 1) % 1024 })
    s

/-- The Hann window coefficients built by the constructor:
`w[i] = 0.5·(1 − cos(2π·i/(FFT_SIZE−1)))`. -/
noncomputable def hannWindow (i : ℕ) : ℝ :=
  0.5 * (1 - Real.cos (2 * Real.pi * i / (1024 - 1)))

/-- The working array `computeFFT` fills before transforming:
`fftBuffer_[i] = complex(sampleBuffer_[(sampleWriteIndex_ + i) % FFT_SIZE] * hannWindow_[i], 0)`. -/
noncomputable def fftInput (s : SpectrumState) : ℕ → ℂ :=
  fun i => ((s.sampleBuffer.getD ((s.sampleWriteIndex + i) % 1024) 0 * hannWindow i : ℝ) : ℂ)

/-- `computeFFT`: window the ring snapshot, transform it in place with
`fftOptimized`, and store the scaled one-sided magnitudes
`|spectrum[i]|·(2/FFT_SIZE)` for `i < FFT_SIZE/2`. -/
noncomputable def computeFFT (s : SpectrumState) : SpectrumState :=
  let out := fftOptimized 1024 (bitReverseLUT 1024) (precomputeTwiddleFactors 1024) (fftInput s)
  { s with
    magnitudes := (List.range 512).map (fun i => Complex.abs (out i) * (2 / 1024)) }

/-- The per-band bin range of `updateBands`: logarithmic or linear raw range,
then `startBin = max(startBin, 1)`, `endBin = min(endBin, N/2)`, and a
degenerate range is widened to width 1. -/
noncomputable def bandRange (logScale : Bool) (numBands band : ℕ) : ℕ × ℕ :=
  let spectrumSize : ℕ := 512
  let raw : ℕ × ℕ :=
    if logScale then
      let minLog : ℝ := Real.logb 10 1
      let maxLog : ℝ := Real.logb 10 (spectrumSize : ℝ)
      let logStart : ℝ := minLog + (maxLog - minLog) * band / numBands
      let logEnd : ℝ := minLog + (maxLog - minLog) * (band + 1) / numBands
      (⌊(10 : ℝ) ^ logStart⌋₊, ⌊(10 : ℝ) ^ logEnd⌋₊)
    else
      (spectrumSize * band / numBands, spectrumSize * (band + 1) / numBands)
  let startBin := max raw.1 1
  let endBin := min raw.2 spectrumSize
  if endBin ≤ startBin then (startBin, startBin + 1) else (startBin, endBin)

/-- The magnitude sum `for (i = startBin; i < endBin; i++) sum += magnitudes_[i]`. -/
noncomputable def binSum (mags : List ℝ) (a b : ℕ) : ℝ :=
  ((List.range (b - a)).map (fun t => mags.getD (a + t) 0)).sum

/-- A band's new raw value: the arithmetic mean of the magnitudes in its
(clamped) bin range. -/
noncomputable def rawBandValue (s : SpectrumState) (band : ℕ) : ℝ :=
  let r := bandRange s.logScale s.numBands band
  binSum s.magnitudes r.1 r.2 / ((r.2 - r.1 : ℕ) : ℝ)

/-- `std::vector::resize(n, 0.0f)`: retained entries keep their values, new
entries are zero-filled. -/
def resizeFill (l : List ℝ) (n : ℕ) : List ℝ :=
  l.take n ++ List.replicate (n - l.length) 0

/-- The band-count guard at the top of `updateBands`: if
`bandValues_.size() != numBands_`, resize all three band-state vectors. -/
noncomputable def resizeBands (s : SpectrumState) : SpectrumState :=
  if s.bandValues.length ≠ s.numBands then
    { s with
      bandValues := resizeFill s.bandValues s.numBands
      peakValues := resizeFill s.peakValues s.numBands
      peakDecay := resizeFill s.peakDecay s.numBands }
  else s

/-- One iteration of the band loop of `updateBands`: smooth the new raw value
into `bandValues_[band]`, then update the peak with its decay accumulator. -/
noncomputable def updateBand (st : SpectrumState) (band : ℕ) : SpectrumState :=
  let newValue := rawBandValue st band
  let bv := st.smoothing * st.bandValues.getD band 0 + (1 - st.smoothing) * newValue
  let st1 := { st with bandValues := st.bandValues.set band bv }
  if bv > st1.peakValues.getD band 0 then
    { st1 with
      peakValues := st1.peakValues.set band bv
      peakDecay := st1.peakDecay.set band 0 }
  else
    let pd := st1.peakDecay.getD band 0 + st1.decayRate
    { st1 with
      peakDecay := st1.peakDecay.set band pd
      peakValues := st1.peakValues.set band (max 0 (st1.peakValues.getD band 0 - pd)) }

/-- `updateBands`: the resize guard, then the loop over all bands. -/
noncomputable def updateBands (s : SpectrumState) : SpectrumState :=
  let s1 := resizeBands s
  (List.range s1.numBands).foldl updateBand s1

/-- `pushSamples`: write the samples into the ring, then synchronously run
`computeFFT()` and `updateBands()` (always, regardless of the sample count). -/
noncomputable def pushSamples (s : SpectrumState) (samples : List ℝ) : SpectrumState :=
  updateBands (computeFFT (ingest s samples))

/-! ## Basic state-machine facts -/

theorem foldl_preserves {α β : Type} (P : β → Prop) (f : β → α → β)
    (h : ∀ b a, P b → P (f b a)) : ∀ (l : List α) (b : β), P b → P (l.foldl f b) := by
  intro l
  induction l with
  | nil => intro b hb; exact hb
  | cons x xs ih => intro b hb; exact ih (f b x) (h b x hb)

/-- `pushSamples`' write loop touches only the ring and the cursor. -/
theorem ingest_fields (s : SpectrumState) (xs : List ℝ) :
    (ingest s xs).magnitudes = s.magnitudes ∧
    (ingest s xs).bandValues = s.bandValues ∧
    (ingest s xs).peakValues = s.peakValues ∧
    (ingest s xs).peakDecay = s.peakDecay ∧
    (ingest s xs).numBands = s.numBands ∧
    (ingest s xs).decayRate = s.decayRate ∧
    (ingest s xs).smoothing = s.smoothing ∧
    (ingest s xs).logScale = s.logScale := by
  refine foldl_preserves
    (fun st => st.magnitudes = s.magnitudes ∧ st.bandValues = s.bandValues ∧
      st.peakValues = s.peakValues ∧ st.peakDecay = s.peakDecay ∧
      st.numBands = s.numBands ∧ st.decayRate = s.decayRate ∧
      st.smoothing = s.smoothing ∧ st.logScale = s.logScale)
    _ ?_ xs s ⟨rfl, rfl, rfl, rfl, rfl, rfl, rfl, rfl⟩
  intro b a hb
  exact hb

theorem ingest_nil (s : SpectrumState) : ingest s [] = s := rfl

/-- `computeFFT` rewrites only the magnitude vector. -/
theorem computeFFT_fields (s : SpectrumState) :
    (computeFFT s).sampleBuffer = s.sampleBuffer ∧
    (computeFFT s).sampleWriteIndex = s.sampleWriteIndex ∧
    (computeFFT s).bandValues = s.bandValues ∧
    (computeFFT s).peakValues = s.peakValues ∧
    (computeFFT s).peakDecay = s.peakDecay ∧
    (computeFFT s).numBands = s.numBands ∧
    (computeFFT s).decayRate = s.decayRate ∧
    (computeFFT s).smoothing = s.smoothing ∧
    (computeFFT s).logScale = s.logScale :=
  ⟨rfl, rfl, rfl, rfl, rfl, rfl, rfl, rfl, rfl⟩

/-- C4. On every ingest call the working array handed to the FFT reads the
ring oldest-first (element `i` is `ring[(writeCursor + i) mod N]`), multiplies
by the construction-time Hann coefficient `0.5·(1 − cos(2π·i/(N−1)))`, and has
imaginary part zero; `computeFFT` hands exactly this array to `fftOptimized`. -/
theorem pushSamples_fft_working_array (s : SpectrumState) (i : ℕ) (hi : i < 1024) :
    fftInput s i =
      ((s.sampleBuffer.getD ((s.sampleWriteIndex + i) % 1024) 0 *
        (0.5 * (1 - Real.cos (2 * Real.pi * i / (1024 - 1)))) : ℝ) : ℂ) ∧
    (fftInput s i).im = 0 ∧
    (computeFFT s).magnitudes =
      (List.range 512).map (fun b =>
        Complex.abs
          (fftOptimized 1024 (bitReverseLUT 1024) (precomputeTwiddleFactors 1024)
            (fftInput s) b) * (2 / 1024)) := by
  refine ⟨rfl, ?_, rfl⟩
  simp [fftInput]

/-- Witness for `pushSamples_fft_working_array` at `s = initState`, `i = 0`. -/
theorem pushSamples_fft_working_array_witness :
    (0 : ℕ) < 1024 ∧
    (fftInput initState 0 =
      ((initState.sampleBuffer.getD ((initState.sampleWriteIndex + 0) % 1024) 0 *
        (0.5 * (1 - Real.cos (2 * Real.pi * ((0 : ℕ) : ℝ) / (1024 - 1)))) : ℝ) : ℂ) ∧
    (fftInput initState 0).im = 0 ∧
    (computeFFT initState).magnitudes =
      (List.range 512).map (fun b =>
        Complex.abs
          (fftOptimized 1024 (bitReverseLUT 1024) (precomputeTwiddleFactors 1024)
            (fftInput initState) b) * (2 / 1024))) :=
  ⟨by norm_num, pushSamples_fft_working_array initState 0 (by norm_num)⟩

/-! ## Characterizing one iteration of the band loop -/

theorem updateBand_fields (st : SpectrumState) (band : ℕ) :
    (updateBand st band).sampleBuffer = st.sampleBuffer ∧
    (updateBand st band).sampleWriteIndex = st.sampleWriteIndex ∧
    (updateBand st band).magnitudes = st.magnitudes ∧
    (updateBand st band).numBands = st.numBands ∧
    (updateBand st band).decayRate = st.decayRate ∧
    (updateBand st band).smoothing = st.smoothing ∧
    (updateBand st band).logScale = st.logScale ∧
    (updateBand st band).bandValues.length = st.bandValues.length ∧
    (updateBand st band).peakValues.length = st.peakValues.length ∧
    (updateBand st band).peakDecay.length = st.peakDecay.length := by
  simp only [updateBand]
  split <;>
    exact ⟨rfl, rfl, rfl, rfl, rfl, rfl, rfl,
      List.length_set .., List.length_set .., List.length_set ..⟩

theorem updateBand_getD_ne (st : SpectrumState) (band k : ℕ) (h : k ≠ band) :
    (updateBand st band).bandValues.getD k 0 = st.bandValues.getD k 0 ∧
    (updateBand st band).peakValues.getD k 0 = st.peakValues.getD k 0 ∧
    (updateBand st band).peakDecay.getD k 0 = st.peakDecay.getD k 0 := by
  simp only [updateBand]
  split <;>
    exact ⟨getD_set_ne _ _ _ _ (Ne.symm h), getD_set_ne _ _ _ _ (Ne.symm h),
      getD_set_ne _ _ _ _ (Ne.symm h)⟩

theorem updateBand_bandValue (st : SpectrumState) (band : ℕ)
    (h : band < st.bandValues.length) :
    (updateBand st band).bandValues.getD band 0 =
      st.smoothing * st.bandValues.getD band 0 + (1 - st.smoothing) * rawBandValue st band := by
  simp only [updateBand]
  split <;> exact getD_set_eq _ _ _ h

theorem updateBand_peak_rise (st : SpectrumState) (band : ℕ)
    (hp : band < st.peakValues.length) (hd : band < st.peakDecay.length)
    (hc : st.smoothing * st.bandValues.getD band 0 + (1 - st.smoothing) * rawBandValue st band >
        st.peakValues.getD band 0) :
    (updateBand st band).peakValues.getD band 0 =
      st.smoothing * st.bandValues.getD band 0 + (1 - st.smoothing) * rawBandValue st band ∧
    (updateBand st band).peakDecay.getD band 0 = 0 := by
  simp only [updateBand]
  split
  · exact ⟨getD_set_eq _ _ _ hp, getD_set_eq _ _ _ hd⟩
  · next hn => exact absurd hc hn

theorem updateBand_peak_decay (st : SpectrumState) (band : ℕ)
    (hp : band < st.peakValues.length) (hd : band < st.peakDecay.length)
    (hc : ¬ (st.smoothing * st.bandValues.getD band 0 + (1 - st.smoothing) * rawBandValue st band >
        st.peakValues.getD band 0)) :
    (updateBand st band).peakDecay.getD band 0 = st.peakDecay.getD band 0 + st.decayRate ∧
    (updateBand st band).peakValues.getD band 0 =
      max 0 (st.peakValues.getD band 0 - (st.peakDecay.getD band 0 + st.decayRate)) := by
  simp only [updateBand]
  split
  · next hy => exact absurd hy hc
  · exact ⟨getD_set_eq _ _ _ hd, getD_set_eq _ _ _ hp⟩

/-- The value the smoothing step writes into band `k`, relative to the state
`s1` the band loop starts from. -/
noncomputable def smoothedNew (s1 : SpectrumState) (k : ℕ) : ℝ :=
  s1.smoothing * s1.bandValues.getD k 0 + (1 - s1.smoothing) * rawBandValue s1 k

theorem rawBandValue_congr (a b : SpectrumState) (k : ℕ)
    (hl : a.logScale = b.logScale) (hn : a.numBands = b.numBands)
    (hm : a.magnitudes = b.magnitudes) :
    rawBandValue a k = rawBandValue b k := by
  simp only [rawBandValue, hl, hn, hm]

/-- Invariant of the band loop of `updateBands` after processing bands
`0, …, c-1` starting from `s1`. -/
structure BandsInv (s1 F : SpectrumState) (c : ℕ) : Prop where
  sampleBuffer_eq : F.sampleBuffer = s1.sampleBuffer
  writeIndex_eq : F.sampleWriteIndex = s1.sampleWriteIndex
  magnitudes_eq : F.magnitudes = s1.magnitudes
  numBands_eq : F.numBands = s1.numBands
  decayRate_eq : F.decayRate = s1.decayRate
  smoothing_eq : F.smoothing = s1.smoothing
  logScale_eq : F.logScale = s1.logScale
  bandValues_len : F.bandValues.length = s1.bandValues.length
  peakValues_len : F.peakValues.length = s1.peakValues.length
  peakDecay_len : F.peakDecay.length = s1.peakDecay.length
  untouched : ∀ k, c ≤ k →
    F.bandValues.getD k 0 = s1.bandValues.getD k 0 ∧
    F.peakValues.getD k 0 = s1.peakValues.getD k 0 ∧
    F.peakDecay.getD k 0 = s1.peakDecay.getD k 0
  smoothed : ∀ k, k < c → F.bandValues.getD k 0 = smoothedNew s1 k
  peak_up : ∀ k, k < c → smoothedNew s1 k > s1.peakValues.getD k 0 →
    F.peakValues.getD k 0 = smoothedNew s1 k ∧ F.peakDecay.getD k 0 = 0
  peak_down : ∀ k, k < c → ¬ smoothedNew s1 k > s1.peakValues.getD k 0 →
    F.peakDecay.getD k 0 = s1.peakDecay.getD k 0 + s1.decayRate ∧
    F.peakValues.getD k 0 =
      max 0 (s1.peakValues.getD k 0 - (s1.peakDecay.getD k 0 + s1.decayRate))

theorem bandsFold_spec (s1 : SpectrumState)
    (hb : s1.bandValues.length = s1.numBands)
    (hp : s1.peakValues.length = s1.numBands)
    (hd : s1.peakDecay.length = s1.numBands) :
    ∀ c, c ≤ s1.numBands → BandsInv s1 ((List.range c).foldl updateBand s1) c := by
  intro c
  induction c with
  | zero =>
    intro _
    exact
      { sampleBuffer_eq := rfl, writeIndex_eq := rfl, magnitudes_eq := rfl,
        numBands_eq := rfl, decayRate_eq := rfl, smoothing_eq := rfl, logScale_eq := rfl,
        bandValues_len := rfl, peakValues_len := rfl, peakDecay_len := rfl,
        untouched := fun _ _ => ⟨rfl, rfl, rfl⟩,
        smoothed := fun k hk => absurd hk (by omega),
        peak_up := fun k hk => absurd hk (by omega),
        peak_down := fun k hk => absurd hk (by omega) }
  | succ c ih =>
    intro hc
    have iv := ih (by omega)
    have hstep :
        (List.range (c + 1)).foldl updateBand s1 =
          updateBand ((List.range c).foldl updateBand s1) c := by
      rw [List.range_succ, List.foldl_append]
      rfl
    rw [hstep]
    set F := (List.range c).foldl updateBand s1 with hF
    obtain ⟨hub, hup, hud⟩ := iv.untouched c (le_refl c)
    have hraw : rawBandValue F c = rawBandValue s1 c :=
      rawBandValue_congr F s1 c iv.logScale_eq iv.numBands_eq iv.magnitudes_eq
    have hcondeq :
        F.smoothing * F.bandValues.getD c 0 + (1 - F.smoothing) * rawBandValue F c =
          smoothedNew s1 c := by
      rw [iv.smoothing_eq, hraw, hub, smoothedNew]
    have hlb : c < F.bandValues.length := by rw [iv.bandValues_len, hb]; omega
    have hlp : c < F.peakValues.length := by rw [iv.peakValues_len, hp]; omega
    have hld : c < F.peakDecay.length := by rw [iv.peakDecay_len, hd]; omega
    obtain ⟨fb, fw, fm, fn, fr, fs, fl, flb, flp, fld⟩ := updateBand_fields F c
    refine
      { sampleBuffer_eq := fb.trans iv.sampleBuffer_eq,
        writeIndex_eq := fw.trans iv.writeIndex_eq,
        magnitudes_eq := fm.trans iv.magnitudes_eq,
        numBands_eq := fn.trans iv.numBands_eq,
        decayRate_eq := fr.trans iv.decayRate_eq,
        smoothing_eq := fs.trans iv.smoothing_eq,
        logScale_eq := fl.trans iv.logScale_eq,
        bandValues_len := flb.trans iv.bandValues_len,
        peakValues_len := flp.trans iv.peakValues_len,
        peakDecay_len := fld.trans iv.peakDecay_len,
        untouched := ?_, smoothed := ?_, peak_up := ?_, peak_down := ?_ }
    · intro k hk
      obtain ⟨g1, g2, g3⟩ := updateBand_getD_ne F c k (by omega)
      obtain ⟨u1, u2, u3⟩ := iv.untouched k (by omega)
      exact ⟨g1.trans u1, g2.trans u2, g3.trans u3⟩
    · intro k hk
      by_cases hkc : k < c
      · exact ((updateBand_getD_ne F c k (by omega)).1).trans (iv.smoothed k hkc)
      · have hkeq : k = c := by omega
        subst hkeq
        rw [updateBand_bandValue F k hlb, hcondeq]
    · intro k hk hcond
      by_cases hkc : k < c
      · obtain ⟨_, g2, g3⟩ := updateBand_getD_ne F c k (by omega)
        obtain ⟨p1, p2⟩ := iv.peak_up k hkc hcond
        exact ⟨g2.trans p1, g3.trans p2⟩
      · have hkeq : k = c := by omega
        subst hkeq
        have hcF :
            F.smoothing * F.bandValues.getD k 0 + (1 - F.smoothing) * rawBandValue F k >
              F.peakValues.getD k 0 := by
          rw [hcondeq, hup]
          exact hcond
        obtain ⟨q1, q2⟩ := updateBand_peak_rise F k hlp hld hcF
        refine ⟨?_, q2⟩
        rw [q1, hcondeq]
    · intro k hk hcond
      by_cases hkc : k < c
      · obtain ⟨_, g2, g3⟩ := updateBand_getD_ne F c k (by omega)
        obtain ⟨p1, p2⟩ := iv.peak_down k hkc hcond
        exact ⟨g3.trans p1, g2.trans p2⟩
      · have hkeq : k = c := by omega
        subst hkeq
        have hcF :
            ¬ (F.smoothing * F.bandValues.getD k 0 + (1 - F.smoothing) * rawBandValue F k >
              F.peakValues.getD k 0) := by
          rw [hcondeq, hup]
          exact hcond
        obtain ⟨q1, q2⟩ := updateBand_peak_decay F k hlp hld hcF
        refine ⟨?_, ?_⟩
        · rw [q1, hud, iv.decayRate_eq]
        · rw [q2, hup, hud, iv.decayRate_eq]

/-! ## The resize guard and `updateBands`/`pushSamples` assembled -/

theorem resizeFill_length (l : List ℝ) (n : ℕ) : (resizeFill l n).length = n := by
  simp [resizeFill]
  omega

theorem getD_take (l : List ℝ) (n k : ℕ) (h : k < n) :
    (l.take n).getD k 0 = l.getD k 0 := by
  simp [List.getD_eq_getElem?_getD, List.getElem?_take, h]

theorem resizeFill_getD (l : List ℝ) (n k : ℕ) :
    (resizeFill l n).getD k 0 = if k < min n l.length then l.getD k 0 else 0 := by
  by_cases h : k < min n l.length
  · rw [if_pos h, resizeFill, List.getD_append _ _ _ _ (by simp; omega),
      getD_take _ _ _ (by omega)]
  · rw [if_neg h]
    by_cases h2 : k < n
    · rw [resizeFill, List.getD_append_right _ _ _ _ (by simp; omega), getD_replicate]
      simp
    · exact List.getD_eq_default _ _ (by rw [resizeFill_length]; omega)

theorem resizeBands_eq_self (s : SpectrumState) (h : s.bandValues.length = s.numBands) :
    resizeBands s = s := by
  simp [resizeBands, h]

theorem resizeBands_of_ne (s : SpectrumState) (h : s.bandValues.length ≠ s.numBands) :
    resizeBands s =
      { s with
        bandValues := resizeFill s.bandValues s.numBands
        peakValues := resizeFill s.peakValues s.numBands
        peakDecay := resizeFill s.peakDecay s.numBands } := by
  simp [resizeBands, h]

theorem updateBands_def (s : SpectrumState) :
    updateBands s = (List.range (resizeBands s).numBands).foldl updateBand (resizeBands s) :=
  rfl

theorem pushSamples_def (s : SpectrumState) (xs : List ℝ) :
    pushSamples s xs = updateBands (computeFFT (ingest s xs)) :=
  rfl

/-- C5. On every ingest call, for every band `k`, the temporal filter computes
`smoothed[k] = α·smoothed[k] + (1−α)·v` from the new raw value `v` (the mean
of the band's magnitude bins); if the new smoothed value exceeds `peak[k]` the
peak snaps to it and the decay accumulator resets to zero, otherwise the decay
rate is accumulated and `peak[k] = max(0, peak[k] − peak_decay[k])`. -/
theorem pushSamples_temporal_filter (s : SpectrumState) (xs : List ℝ) (k : ℕ)
    (hb : s.bandValues.length = s.numBands)
    (hp : s.peakValues.length = s.numBands)
    (hd : s.peakDecay.length = s.numBands)
    (hk : k < s.numBands) :
    (pushSamples s xs).bandValues.getD k 0 =
      s.smoothing * s.bandValues.getD k 0 +
        (1 - s.smoothing) * rawBandValue (computeFFT (ingest s xs)) k ∧
    (s.smoothing * s.bandValues.getD k 0 +
        (1 - s.smoothing) * rawBandValue (computeFFT (ingest s xs)) k >
          s.peakValues.getD k 0 →
      (pushSamples s xs).peakValues.getD k 0 =
        s.smoothing * s.bandValues.getD k 0 +
          (1 - s.smoothing) * rawBandValue (computeFFT (ingest s xs)) k ∧
      (pushSamples s xs).peakDecay.getD k 0 = 0) ∧
    (¬ (s.smoothing * s.bandValues.getD k 0 +
        (1 - s.smoothing) * rawBandValue (computeFFT (ingest s xs)) k >
          s.peakValues.getD k 0) →
      (pushSamples s xs).peakDecay.getD k 0 = s.peakDecay.getD k 0 + s.decayRate ∧
      (pushSamples s xs).peakValues.getD k 0 =
        max 0 (s.peakValues.getD k 0 - (s.peakDecay.getD k 0 + s.decayRate))) := by
  obtain ⟨im, ib, ipv, ipd, inb, idr, ism, ils⟩ := ingest_fields s xs
  set mid := computeFFT (ingest s xs) with hmid
  obtain ⟨csb, cwi, cbv, cpv, cpd, cnb, cdr, csm, cls⟩ := computeFFT_fields (ingest s xs)
  have mb : mid.bandValues = s.bandValues := cbv.trans ib
  have mp : mid.peakValues = s.peakValues := cpv.trans ipv
  have md : mid.peakDecay = s.peakDecay := cpd.trans ipd
  have mn : mid.numBands = s.numBands := cnb.trans inb
  have mr : mid.decayRate = s.decayRate := cdr.trans idr
  have ms : mid.smoothing = s.smoothing := csm.trans ism
  have hno : resizeBands mid = mid := resizeBands_eq_self mid (by rw [mb, mn]; exact hb)
  have hpush : pushSamples s xs = (List.range mid.numBands).foldl updateBand mid := by
    rw [pushSamples_def, updateBands_def, hno]
  have inv := bandsFold_spec mid (by rw [mb, mn]; exact hb) (by rw [mp, mn]; exact hp)
    (by rw [md, mn]; exact hd) mid.numBands (le_refl _)
  have hkm : k < mid.numBands := by rw [mn]; exact hk
  have hsm : smoothedNew mid k =
      s.smoothing * s.bandValues.getD k 0 + (1 - s.smoothing) * rawBandValue mid k := by
    rw [smoothedNew, ms, mb]
  rw [hpush]
  refine ⟨(inv.smoothed k hkm).trans hsm, ?_, ?_⟩
  · intro hcond
    have hcond2 : smoothedNew mid k > mid.peakValues.getD k 0 := by
      rw [hsm, mp]; exact hcond
    obtain ⟨p1, p2⟩ := inv.peak_up k hkm hcond2
    exact ⟨p1.trans hsm, p2⟩
  · intro hcond
    have hcond2 : ¬ smoothedNew mid k > mid.peakValues.getD k 0 := by
      rw [hsm, mp]; exact hcond
    obtain ⟨p1, p2⟩ := inv.peak_down k hkm hcond2
    constructor
    · rw [p1, md, mr]
    · rw [p2, mp, md, mr]

/-- Witness for `pushSamples_temporal_filter` at the construction state with
one silent push and band `0`. -/
theorem pushSamples_temporal_filter_witness :
    (initState.bandValues.length = initState.numBands ∧
     initState.peakValues.length = initState.numBands ∧
     initState.peakDecay.length = initState.numBands ∧
     0 < initState.numBands) ∧
    ((pushSamples initState []).bandValues.getD 0 0 =
      initState.smoothing * initState.bandValues.getD 0 0 +
        (1 - initState.smoothing) * rawBandValue (computeFFT (ingest initState [])) 0 ∧
    (initState.smoothing * initState.bandValues.getD 0 0 +
        (1 - initState.smoothing) * rawBandValue (computeFFT (ingest initState [])) 0 >
          initState.peakValues.getD 0 0 →
      (pushSamples initState []).peakValues.getD 0 0 =
        initState.smoothing * initState.bandValues.getD 0 0 +
          (1 - initState.smoothing) * rawBandValue (computeFFT (ingest initState [])) 0 ∧
      (pushSamples initState []).peakDecay.getD 0 0 = 0) ∧
    (¬ (initState.smoothing * initState.bandValues.getD 0 0 +
        (1 - initState.smoothing) * rawBandValue (computeFFT (ingest initState [])) 0 >
          initState.peakValues.getD 0 0) →
      (pushSamples initState []).peakDecay.getD 0 0 =
        initState.peakDecay.getD 0 0 + initState.decayRate ∧
      (pushSamples initState []).peakValues.getD 0 0 =
        max 0 (initState.peakValues.getD 0 0 -
          (initState.peakDecay.getD 0 0 + initState.decayRate)))) :=
  ⟨⟨by simp [initState], by simp [initState], by simp [initState], by simp [initState]⟩,
    pushSamples_temporal_filter initState [] 0 (by simp [initState]) (by simp [initState])
      (by simp [initState]) (by simp [initState])⟩

/-- C9. Setting the band count to its current (in-range) value is a state
no-op, and the next ingest call keeps the lengths of the smoothed and peak
sequences and runs the normal temporal filter over their previous contents —
it does not zero them. -/
theorem setNumBands_current_idempotent (s : SpectrumState) (xs : List ℝ)
    (h8 : 8 ≤ s.numBands) (h128 : s.numBands ≤ 128)
    (hb : s.bandValues.length = s.numBands)
    (hp : s.peakValues.length = s.numBands)
    (hd : s.peakDecay.length = s.numBands) :
    setNumBands s s.numBands = s ∧
    (pushSamples (setNumBands s s.numBands) xs).bandValues.length = s.bandValues.length ∧
    (pushSamples (setNumBands s s.numBands) xs).peakValues.length = s.peakValues.length ∧
    (∀ k, k < s.numBands →
      (pushSamples (setNumBands s s.numBands) xs).bandValues.getD k 0 =
        s.smoothing * s.bandValues.getD k 0 +
          (1 - s.smoothing) * rawBandValue (computeFFT (ingest s xs)) k) := by
  have hcl : min (max s.numBands 8) 128 = s.numBands := by omega
  have hself : setNumBands s s.numBands = s := by
    rw [setNumBands, hcl]
  rw [hself]
  obtain ⟨im, ib, ipv, ipd, inb, idr, ism, ils⟩ := ingest_fields s xs
  set mid := computeFFT (ingest s xs) with hmid
  obtain ⟨csb, cwi, cbv, cpv, cpd, cnb, cdr, csm, cls⟩ := computeFFT_fields (ingest s xs)
  have mb : mid.bandValues = s.bandValues := cbv.trans ib
  have mp : mid.peakValues = s.peakValues := cpv.trans ipv
  have md : mid.peakDecay = s.peakDecay := cpd.trans ipd
  have mn : mid.numBands = s.numBands := cnb.trans inb
  have ms : mid.smoothing = s.smoothing := csm.trans ism
  have hno : resizeBands mid = mid := resizeBands_eq_self mid (by rw [mb, mn]; exact hb)
  have hpush : pushSamples s xs = (List.range mid.numBands).foldl updateBand mid := by
    rw [pushSamples_def, updateBands_def, hno]
  have inv := bandsFold_spec mid (by rw [mb, mn]; exact hb) (by rw [mp, mn]; exact hp)
    (by rw [md, mn]; exact hd) mid.numBands (le_refl _)
  refine ⟨rfl, ?_, ?_, ?_⟩
  · rw [hpush, inv.bandValues_len, mb]
  · rw [hpush, inv.peakValues_len, mp]
  · intro k hk
    have hkm : k < mid.numBands := by rw [mn]; exact hk
    have hsm : smoothedNew mid k =
        s.smoothing * s.bandValues.getD k 0 + (1 - s.smoothing) * rawBandValue mid k := by
      rw [smoothedNew, ms, mb]
    rw [hpush]
    exact (inv.smoothed k hkm).trans hsm

/-- Witness for `setNumBands_current_idempotent` at the construction state. -/
theorem setNumBands_current_idempotent_witness :
    (8 ≤ initState.numBands ∧ initState.numBands ≤ 128 ∧
     initState.bandValues.length = initState.numBands ∧
     initState.peakValues.length = initState.numBands ∧
     initState.peakDecay.length = initState.numBands) ∧
    (setNumBands initState initState.numBands = initState ∧
     (pushSamples (setNumBands initState initState.numBands) []).bandValues.length =
       initState.bandValues.length ∧
     (pushSamples (setNumBands initState initState.numBands) []).peakValues.length =
       initState.peakValues.length ∧
     (∀ k, k < initState.numBands →
       (pushSamples (setNumBands initState initState.numBands) []).bandValues.getD k 0 =
         initState.smoothing * initState.bandValues.getD k 0 +
           (1 - initState.smoothing) * rawBandValue (computeFFT (ingest initState [])) k)) :=
  ⟨⟨by simp [initState], by simp [initState], by simp [initState], by simp [initState],
      by simp [initState]⟩,
    setNumBands_current_idempotent initState [] (by simp [initState]) (by simp [initState])
      (by simp [initState]) (by simp [initState]) (by simp [initState])⟩

/-! ## Zero inputs produce zero magnitudes -/

theorem butterfly_zero (d : ℕ → ℂ) (hd : ∀ r, d r = 0) (p q : ℕ) (w : ℂ) :
    ∀ r, butterfly d p q w r = 0 := by
  intro r
  simp [butterfly, Function.update_apply, hd]

theorem innerPass_zero (i h : ℕ) (f : ℕ → ℂ) (cnt : ℕ) (d : ℕ → ℂ) (hd : ∀ r, d r = 0) :
    ∀ r, innerPass i h f cnt d r = 0 :=
  foldl_preserves (fun d => ∀ r, d r = 0) _
    (fun b j hb => butterfly_zero b hb (i + j) (i + j + h) (f j)) _ d hd

theorem blockPass_zero (len : ℕ) (f : ℕ → ℂ) (n : ℕ) (d : ℕ → ℂ) (hd : ∀ r, d r = 0) :
    ∀ r, blockPass len f n d r = 0 :=
  foldl_preserves (fun d => ∀ r, d r = 0) _
    (fun b i hb => innerPass_zero i (len / 2) f (len / 2) b hb) _ d hd

theorem bitRevPermute_zero (n : ℕ) (lut : List ℕ) (a : ℕ → ℂ) (ha : ∀ r, a r = 0) :
    ∀ r, bitRevPermute n lut a r = 0 := by
  refine foldl_preserves (fun d => ∀ r, d r = 0) _ ?_ _ a ha
  intro b i hb
  by_cases h : i < lut.getD i 0
  · intro r
    rw [if_pos h]
    simp [Function.update_apply, hb]
  · intro r
    rw [if_neg h]
    exact hb r

theorem fftOptimized_zero (n : ℕ) (lut : List ℕ) (table : List (List ℂ)) (a : ℕ → ℂ)
    (ha : ∀ r, a r = 0) : ∀ r, fftOptimized n lut table a r = 0 := by
  rw [fftOptimized]
  split
  · exact ha
  · exact foldl_preserves (fun d => ∀ r, d r = 0) _
      (fun b stage hb =>
        blockPass_zero (2 ^ (stage + 1)) (fun j => (table.getD stage []).getD j 0) n b hb)
      _ _ (bitRevPermute_zero n lut a ha)

theorem computeFFT_magnitudes (s : SpectrumState) :
    (computeFFT s).magnitudes =
      (List.range 512).map (fun i =>
        Complex.abs
          (fftOptimized 1024 (bitReverseLUT 1024) (precomputeTwiddleFactors 1024)
            (fftInput s) i) * (2 / 1024)) :=
  rfl

theorem computeFFT_magnitudes_zero (s : SpectrumState)
    (hs : ∀ q, s.sampleBuffer.getD q 0 = 0) :
    ∀ k, (computeFFT s).magnitudes.getD k 0 = 0 := by
  intro k
  have hin : ∀ q, fftInput s q = 0 := by
    intro q
    show ((s.sampleBuffer.getD ((s.sampleWriteIndex + q) % 1024) 0 * hannWindow q : ℝ) : ℂ) = 0
    rw [hs, zero_mul, Complex.ofReal_zero]
  have hout := fftOptimized_zero 1024 (bitReverseLUT 1024) (precomputeTwiddleFactors 1024)
    (fftInput s) hin
  rw [computeFFT_magnitudes]
  by_cases hk : k < 512
  · rw [getD_map_range _ _ _ _ hk, hout k]
    simp
  · exact List.getD_eq_default _ _ (by simp; omega)

theorem rawBandValue_of_zero_magnitudes (s : SpectrumState)
    (hm : ∀ q, s.magnitudes.getD q 0 = 0) (k : ℕ) : rawBandValue s k = 0 := by
  rw [rawBandValue]
  have hsum : binSum s.magnitudes (bandRange s.logScale s.numBands k).1
      (bandRange s.logScale s.numBands k).2 = 0 := by
    rw [binSum]
    refine List.sum_eq_zero ?_
    intro x hx
    obtain ⟨t, _, rfl⟩ := List.mem_map.mp hx
    exact hm _
  rw [hsum, zero_div]

/-! ## Claims C2 and C1: a zero-count push is not a no-op, and the resize on a
band-count change is not a full reset -/

theorem resizeBands_fields (s : SpectrumState) :
    (resizeBands s).sampleBuffer = s.sampleBuffer ∧
    (resizeBands s).sampleWriteIndex = s.sampleWriteIndex ∧
    (resizeBands s).magnitudes = s.magnitudes ∧
    (resizeBands s).numBands = s.numBands ∧
    (resizeBands s).decayRate = s.decayRate ∧
    (resizeBands s).smoothing = s.smoothing ∧
    (resizeBands s).logScale = s.logScale := by
  rw [resizeBands]
  split <;> exact ⟨rfl, rfl, rfl, rfl, rfl, rfl, rfl⟩

theorem updateBands_ring (s : SpectrumState) :
    (updateBands s).sampleBuffer = s.sampleBuffer ∧
    (updateBands s).sampleWriteIndex = s.sampleWriteIndex := by
  rw [updateBands_def]
  obtain ⟨h1, h2, _⟩ := resizeBands_fields s
  refine foldl_preserves
    (fun st => st.sampleBuffer = s.sampleBuffer ∧ st.sampleWriteIndex = s.sampleWriteIndex)
    updateBand ?_ _ _ ⟨h1, h2⟩
  intro c a hc
  obtain ⟨f1, f2, _⟩ := updateBand_fields c a
  exact ⟨f1.trans hc.1, f2.trans hc.2⟩

/-- C2 amended. A `pushSamples` call with zero samples leaves the sample ring
and the write cursor unchanged, but it does NOT skip recomputation: it still
runs the full `computeFFT` + `updateBands` pipeline, so the smoothed, peak and
decay sequences are updated as on any other call. -/
theorem pushSamples_zero_count_amended (s : SpectrumState) :
    (pushSamples s []).sampleBuffer = s.sampleBuffer ∧
    (pushSamples s []).sampleWriteIndex = s.sampleWriteIndex ∧
    pushSamples s [] = updateBands (computeFFT s) := by
  obtain ⟨h1, h2⟩ := updateBands_ring (computeFFT s)
  exact ⟨h1, h2, rfl⟩

/-- A concrete engine state: the construction state except that band 0 has
smoothed value `5` (ring all zero, 32 bands). -/
noncomputable def zeroPushState : SpectrumState :=
  { initState with bandValues := 5 :: List.replicate 31 0 }

/-- C2 counterexample. At `zeroPushState`, pushing zero samples changes the
observable state: `bandValues[0]` moves from `5` to `0.7·5 + 0.3·0 = 3.5`
because the pipeline reruns the temporal filter. -/
theorem pushSamples_zero_count_counterexample :
    (pushSamples zeroPushState []).bandValues.getD 0 0 = 3.5 ∧
    zeroPushState.bandValues.getD 0 0 = 5 ∧ ((3.5 : ℝ) ≠ 5) := by
  have hbuf : ∀ q, zeroPushState.sampleBuffer.getD q 0 = 0 := by
    intro q
    show (List.replicate 1024 (0 : ℝ)).getD q 0 = 0
    rw [getD_replicate]
    simp
  set mid := computeFFT zeroPushState with hmid
  have hmm : ∀ q, mid.magnitudes.getD q 0 = 0 := computeFFT_magnitudes_zero zeroPushState hbuf
  have hraw : rawBandValue mid 0 = 0 := rawBandValue_of_zero_magnitudes mid hmm 0
  have hbv0 : mid.bandValues.getD 0 0 = 5 := rfl
  have ms : mid.smoothing = 0.7 := rfl
  have hlenb : mid.bandValues.length = mid.numBands := by
    show (5 :: List.replicate 31 (0 : ℝ)).length = 32
    simp
  have hlenp : mid.peakValues.length = mid.numBands := by
    show (List.replicate 32 (0 : ℝ)).length = 32
    simp
  have hlend : mid.peakDecay.length = mid.numBands := by
    show (List.replicate 32 (0 : ℝ)).length = 32
    simp
  have hno : resizeBands mid = mid := resizeBands_eq_self mid hlenb
  have hpush : pushSamples zeroPushState [] = (List.range mid.numBands).foldl updateBand mid := by
    rw [pushSamples_def, ingest_nil, updateBands_def, hno]
  have inv := bandsFold_spec mid hlenb hlenp hlend mid.numBands (le_refl _)
  have h0 := inv.smoothed 0 (show (0 : ℕ) < 32 from by norm_num)
  have hsm : smoothedNew mid 0 = 0.7 * 5 + (1 - 0.7) * 0 := by
    show mid.smoothing * mid.bandValues.getD 0 0 + (1 - mid.smoothing) * rawBandValue mid 0 = _
    rw [hraw, ms, hbv0]
  refine ⟨?_, rfl, by norm_num⟩
  rw [hpush, h0, hsm]
  norm_num

/-- C1 amended. Changing the band count to a (clamped) value `B` different
from the current sequence length makes the next ingest call resize all three
band-state sequences to exactly `B` entries — but `std::vector::resize(B, 0)`
only zero-fills the NEW entries: the retained prefix keeps its previous
contents and then flows through the normal temporal filter, so the sequences
are not reset to all zeros. -/
theorem bandcount_change_amended (s : SpectrumState) (b : ℕ) (xs : List ℝ)
    (hB : min (max b 8) 128 ≠ s.bandValues.length) :
    (pushSamples (setNumBands s b) xs).bandValues.length = min (max b 8) 128 ∧
    (pushSamples (setNumBands s b) xs).peakValues.length = min (max b 8) 128 ∧
    (pushSamples (setNumBands s b) xs).peakDecay.length = min (max b 8) 128 ∧
    (resizeBands (computeFFT (ingest (setNumBands s b) xs))).bandValues =
      s.bandValues.take (min (max b 8) 128) ++
        List.replicate (min (max b 8) 128 - s.bandValues.length) 0 ∧
    (resizeBands (computeFFT (ingest (setNumBands s b) xs))).peakValues =
      s.peakValues.take (min (max b 8) 128) ++
        List.replicate (min (max b 8) 128 - s.peakValues.length) 0 ∧
    (resizeBands (computeFFT (ingest (setNumBands s b) xs))).peakDecay =
      s.peakDecay.take (min (max b 8) 128) ++
        List.replicate (min (max b 8) 128 - s.peakDecay.length) 0 ∧
    (∀ k, k < min (max b 8) 128 →
      (pushSamples (setNumBands s b) xs).bandValues.getD k 0 =
        s.smoothing *
          (resizeBands (computeFFT (ingest (setNumBands s b) xs))).bandValues.getD k 0 +
        (1 - s.smoothing) *
          rawBandValue (resizeBands (computeFFT (ingest (setNumBands s b) xs))) k) := by
  obtain ⟨im, ib, ipv, ipd, inb, idr, ism, ils⟩ := ingest_fields (setNumBands s b) xs
  set mid := computeFFT (ingest (setNumBands s b) xs) with hmid
  obtain ⟨csb, cwi, cbv, cpv, cpd, cnb, cdr, csm, cls⟩ :=
    computeFFT_fields (ingest (setNumBands s b) xs)
  have mb : mid.bandValues = s.bandValues := cbv.trans ib
  have mp : mid.peakValues = s.peakValues := cpv.trans ipv
  have md : mid.peakDecay = s.peakDecay := cpd.trans ipd
  have mn : mid.numBands = min (max b 8) 128 := cnb.trans inb
  have ms : mid.smoothing = s.smoothing := csm.trans ism
  have hcond : mid.bandValues.length ≠ mid.numBands := by
    rw [mb, mn]
    exact fun h => hB h.symm
  have hr := resizeBands_of_ne mid hcond
  have rb : (resizeBands mid).bandValues = resizeFill s.bandValues (min (max b 8) 128) := by
    rw [hr]
    show resizeFill mid.bandValues mid.numBands = _
    rw [mb, mn]
  have rp : (resizeBands mid).peakValues = resizeFill s.peakValues (min (max b 8) 128) := by
    rw [hr]
    show resizeFill mid.peakValues mid.numBands = _
    rw [mp, mn]
  have rd : (resizeBands mid).peakDecay = resizeFill s.peakDecay (min (max b 8) 128) := by
    rw [hr]
    show resizeFill mid.peakDecay mid.numBands = _
    rw [md, mn]
  obtain ⟨_, _, _, rn, _, rs, _⟩ := resizeBands_fields mid
  have rnB : (resizeBands mid).numBands = min (max b 8) 128 := rn.trans mn
  have rsB : (resizeBands mid).smoothing = s.smoothing := rs.trans ms
  have hlb : (resizeBands mid).bandValues.length = (resizeBands mid).numBands := by
    rw [rb, resizeFill_length, rnB]
  have hlp : (resizeBands mid).peakValues.length = (resizeBands mid).numBands := by
    rw [rp, resizeFill_length, rnB]
  have hld : (resizeBands mid).peakDecay.length = (resizeBands mid).numBands := by
    rw [rd, resizeFill_length, rnB]
  have hpush :
      pushSamples (setNumBands s b) xs =
        (List.range (resizeBands mid).numBands).foldl updateBand (resizeBands mid) := by
    rw [pushSamples_def, updateBands_def]
  have inv := bandsFold_spec (resizeBands mid) hlb hlp hld (resizeBands mid).numBands
    (le_refl _)
  refine ⟨?_, ?_, ?_, rb, rp, rd, ?_⟩
  · rw [hpush, inv.bandValues_len, hlb, rnB]
  · rw [hpush, inv.peakValues_len, hlp, rnB]
  · rw [hpush, inv.peakDecay_len, hld, rnB]
  · intro k hk
    have hkr : k < (resizeBands mid).numBands := by rw [rnB]; exact hk
    have hsm : smoothedNew (resizeBands mid) k =
        s.smoothing * (resizeBands mid).bandValues.getD k 0 +
          (1 - s.smoothing) * rawBandValue (resizeBands mid) k := by
      rw [smoothedNew, rsB]
    rw [hpush]
    exact (inv.smoothed k hkr).trans hsm

/-- Witness for `bandcount_change_amended`: construction state, band count
changed from 32 to 64, silent push. -/
theorem bandcount_change_amended_witness :
    (min (max 64 8) 128 ≠ initState.bandValues.length) ∧
    ((pushSamples (setNumBands initState 64) []).bandValues.length = min (max 64 8) 128 ∧
    (pushSamples (setNumBands initState 64) []).peakValues.length = min (max 64 8) 128 ∧
    (pushSamples (setNumBands initState 64) []).peakDecay.length = min (max 64 8) 128 ∧
    (resizeBands (computeFFT (ingest (setNumBands initState 64) []))).bandValues =
      initState.bandValues.take (min (max 64 8) 128) ++
        List.replicate (min (max 64 8) 128 - initState.bandValues.length) 0 ∧
    (resizeBands (computeFFT (ingest (setNumBands initState 64) []))).peakValues =
      initState.peakValues.take (min (max 64 8) 128) ++
        List.replicate (min (max 64 8) 128 - initState.peakValues.length) 0 ∧
    (resizeBands (computeFFT (ingest (setNumBands initState 64) []))).peakDecay =
      initState.peakDecay.take (min (max 64 8) 128) ++
        List.replicate (min (max 64 8) 128 - initState.peakDecay.length) 0 ∧
    (∀ k, k < min (max 64 8) 128 →
      (pushSamples (setNumBands initState 64) []).bandValues.getD k 0 =
        initState.smoothing *
          (resizeBands (computeFFT (ingest (setNumBands initState 64) []))).bandValues.getD k 0 +
        (1 - initState.smoothing) *
          rawBandValue (resizeBands (computeFFT (ingest (setNumBands initState 64) []))) k)) :=
  ⟨by simp [initState], bandcount_change_amended initState 64 [] (by simp [initState])⟩

/-- A concrete engine state: the construction state except that band 0 has
smoothed value `7` (ring all zero, 32 bands). -/
noncomputable def bandResizeState : SpectrumState :=
  { initState with bandValues := 7 :: List.replicate 31 0 }

/-- C1 counterexample. Starting from `bandResizeState` (32 bands, band 0 at
`7`), changing the band count to 64 and pushing makes the resize retain the
old entry: after the call `bandValues[0] = 0.7·7 + 0.3·0 = 4.9 ≠ 0`, so the
sequences are resized to 64 entries but NOT reset to all zeros. -/
theorem bandcount_change_counterexample :
    (pushSamples (setNumBands bandResizeState 64) []).bandValues.getD 0 0 = 4.9 ∧
    (pushSamples (setNumBands bandResizeState 64) []).bandValues.length = 64 ∧
    ((4.9 : ℝ) ≠ 0) := by
  have hbuf : ∀ q, (setNumBands bandResizeState 64).sampleBuffer.getD q 0 = 0 := by
    intro q
    show (List.replicate 1024 (0 : ℝ)).getD q 0 = 0
    rw [getD_replicate]
    simp
  set mid := computeFFT (setNumBands bandResizeState 64) with hmid
  have hmm : ∀ q, mid.magnitudes.getD q 0 = 0 :=
    computeFFT_magnitudes_zero (setNumBands bandResizeState 64) hbuf
  have mnum : mid.numBands = 64 := by decide
  have hcond : mid.bandValues.length ≠ mid.numBands := by
    rw [mnum]
    show (7 :: List.replicate 31 (0 : ℝ)).length ≠ 64
    simp
  have hr := resizeBands_of_ne mid hcond
  obtain ⟨_, _, rm, rn, _, rs, _⟩ := resizeBands_fields mid
  have hrm : ∀ q, (resizeBands mid).magnitudes.getD q 0 = 0 := by
    intro q
    rw [rm]
    exact hmm q
  have hraw : rawBandValue (resizeBands mid) 0 = 0 :=
    rawBandValue_of_zero_magnitudes (resizeBands mid) hrm 0
  have rnum : (resizeBands mid).numBands = 64 := rn.trans mnum
  have rsm : (resizeBands mid).smoothing = 0.7 := by
    rw [rs]
    rfl
  have rb : (resizeBands mid).bandValues = resizeFill (7 :: List.replicate 31 0) 64 := by
    rw [hr]
    show resizeFill mid.bandValues mid.numBands = _
    rw [mnum]
    rfl
  have rbv0 : (resizeBands mid).bandValues.getD 0 0 = 7 := by
    rw [rb, resizeFill_getD]
    simp
  have hlb : (resizeBands mid).bandValues.length = (resizeBands mid).numBands := by
    rw [rb, resizeFill_length, rnum]
  have hlp : (resizeBands mid).peakValues.length = (resizeBands mid).numBands := by
    rw [hr]
    show (resizeFill mid.peakValues mid.numBands).length = mid.numBands
    rw [resizeFill_length]
  have hld : (resizeBands mid).peakDecay.length = (resizeBands mid).numBands := by
    rw [hr]
    show (resizeFill mid.peakDecay mid.numBands).length = mid.numBands
    rw [resizeFill_length]
  have hpush :
      pushSamples (setNumBands bandResizeState 64) [] =
        (List.range (resizeBands mid).numBands).foldl updateBand (resizeBands mid) := by
    rw [pushSamples_def, ingest_nil, updateBands_def]
  have inv := bandsFold_spec (resizeBands mid) hlb hlp hld (resizeBands mid).numBands
    (le_refl _)
  have h0 := inv.smoothed 0 (by rw [rnum]; norm_num)
  have hsm : smoothedNew (resizeBands mid) 0 = 0.7 * 7 + (1 - 0.7) * 0 := by
    show (resizeBands mid).smoothing * (resizeBands mid).bandValues.getD 0 0 +
      (1 - (resizeBands mid).smoothing) * rawBandValue (resizeBands mid) 0 = _
    rw [hraw, rsm, rbv0]
  refine ⟨?_, ?_, by norm_num⟩
  · rw [hpush, h0, hsm]
    norm_num
  · rw [hpush, inv.bandValues_len, hlb, rnum]

/-! ## Claim C7: clamped bin ranges are safe -/

theorem rpow_interp_le (t : ℝ) (B : ℕ) (hB : 0 < B) (h : t ≤ B) :
    (10 : ℝ) ^ (Real.logb 10 1 + (Real.logb 10 ((512 : ℕ) : ℝ) - Real.logb 10 1) * t / B) ≤
      512 := by
  have hcast : ((512 : ℕ) : ℝ) = (512 : ℝ) := by norm_num
  rw [hcast, Real.logb_one]
  have hexp :
      (0 : ℝ) + (Real.logb 10 512 - 0) * t / B = Real.logb 10 512 * (t / B) := by ring
  rw [hexp, Real.rpow_mul (by norm_num : (0 : ℝ) ≤ 10),
    Real.rpow_logb (by norm_num) (by norm_num) (by norm_num)]
  have htB : t / B ≤ 1 := by
    rw [div_le_one (by positivity)]
    exact h
  calc (512 : ℝ) ^ (t / B) ≤ 512 ^ (1 : ℝ) :=
        Real.rpow_le_rpow_of_exponent_le (by norm_num) htB
    _ = 512 := by rw [Real.rpow_one]

theorem rpow_interp_lt (t : ℝ) (B : ℕ) (hB : 0 < B) (h : t < B) :
    (10 : ℝ) ^ (Real.logb 10 1 + (Real.logb 10 ((512 : ℕ) : ℝ) - Real.logb 10 1) * t / B) <
      512 := by
  have hcast : ((512 : ℕ) : ℝ) = (512 : ℝ) := by norm_num
  rw [hcast, Real.logb_one]
  have hexp :
      (0 : ℝ) + (Real.logb 10 512 - 0) * t / B = Real.logb 10 512 * (t / B) := by ring
  rw [hexp, Real.rpow_mul (by norm_num : (0 : ℝ) ≤ 10),
    Real.rpow_logb (by norm_num) (by norm_num) (by norm_num)]
  have htB : t / B < 1 := by
    rw [div_lt_one (by positivity)]
    exact h
  calc (512 : ℝ) ^ (t / B) < 512 ^ (1 : ℝ) :=
        Real.rpow_lt_rpow_of_exponent_lt (by norm_num) htB
    _ = 512 := by rw [Real.rpow_one]

/-- The clamp tail of the band-range computation:
`startBin = max(startBin, 1); endBin = min(endBin, 512); widen if empty`. -/
theorem clamp_tail_safe (p : ℕ × ℕ) (hs : p.1 ≤ 511) (he : p.2 ≤ 512) :
    1 ≤ (if min p.2 512 ≤ max p.1 1 then (max p.1 1, max p.1 1 + 1)
         else (max p.1 1, min p.2 512)).1 ∧
    (if min p.2 512 ≤ max p.1 1 then (max p.1 1, max p.1 1 + 1)
         else (max p.1 1, min p.2 512)).1 <
      (if min p.2 512 ≤ max p.1 1 then (max p.1 1, max p.1 1 + 1)
         else (max p.1 1, min p.2 512)).2 ∧
    (if min p.2 512 ≤ max p.1 1 then (max p.1 1, max p.1 1 + 1)
         else (max p.1 1, min p.2 512)).2 ≤ 512 := by
  by_cases h : min p.2 512 ≤ max p.1 1
  · rw [if_pos h]
    dsimp only
    omega
  · rw [if_neg h]
    dsimp only
    omega

/-- C7. For every band `k < B` with `B` in `[8, 128]`, in both mapping modes,
the clamped bin range satisfies `1 ≤ startBin < endBin ≤ N/2`; hence the mean
divides by `endBin − startBin ≥ 1` and every magnitude index read lies
strictly inside the `N/2`-entry magnitude sequence. -/
theorem bandRange_safe (mode : Bool) (B k : ℕ) (hB8 : 8 ≤ B) (hB128 : B ≤ 128)
    (hk : k < B) :
    1 ≤ (bandRange mode B k).1 ∧
    (bandRange mode B k).1 < (bandRange mode B k).2 ∧
    (bandRange mode B k).2 ≤ 512 ∧
    1 ≤ (bandRange mode B k).2 - (bandRange mode B k).1 ∧
    (∀ i, (bandRange mode B k).1 ≤ i → i < (bandRange mode B k).2 → 1 ≤ i ∧ i < 512) := by
  have hB : 0 < B := by omega
  suffices h : 1 ≤ (bandRange mode B k).1 ∧
      (bandRange mode B k).1 < (bandRange mode B k).2 ∧ (bandRange mode B k).2 ≤ 512 by
    obtain ⟨h1, h2, h3⟩ := h
    exact ⟨h1, h2, h3, by omega, fun i hi1 hi2 => by omega⟩
  cases mode with
  | true =>
    have hs0 : ⌊(10 : ℝ) ^ (Real.logb 10 1 +
        (Real.logb 10 ((512 : ℕ) : ℝ) - Real.logb 10 1) * (k : ℝ) / B)⌋₊ ≤ 511 := by
      have hnn : (0 : ℝ) ≤ (10 : ℝ) ^ (Real.logb 10 1 +
          (Real.logb 10 ((512 : ℕ) : ℝ) - Real.logb 10 1) * (k : ℝ) / B) :=
        (Real.rpow_pos_of_pos (by norm_num) _).le
      have hlt := rpow_interp_lt (k : ℝ) B hB (by exact_mod_cast hk)
      have hfl : (⌊(10 : ℝ) ^ (Real.logb 10 1 +
          (Real.logb 10 ((512 : ℕ) : ℝ) - Real.logb 10 1) * (k : ℝ) / B)⌋₊ : ℕ) < 512 :=
        (Nat.floor_lt hnn).mpr (by exact_mod_cast hlt)
      omega
    have he0 : ⌊(10 : ℝ) ^ (Real.logb 10 1 +
        (Real.logb 10 ((512 : ℕ) : ℝ) - Real.logb 10 1) * ((k : ℝ) + 1) / B)⌋₊ ≤ 512 := by
      have hle := rpow_interp_le ((k : ℝ) + 1) B hB (by exact_mod_cast hk)
      calc ⌊(10 : ℝ) ^ (Real.logb 10 1 +
            (Real.logb 10 ((512 : ℕ) : ℝ) - Real.logb 10 1) * ((k : ℝ) + 1) / B)⌋₊ ≤
            ⌊(512 : ℝ)⌋₊ := Nat.floor_mono hle
        _ = 512 := by norm_num
    exact clamp_tail_safe
      (⌊(10 : ℝ) ^ (Real.logb 10 1 +
          (Real.logb 10 ((512 : ℕ) : ℝ) - Real.logb 10 1) * (k : ℝ) / B)⌋₊,
       ⌊(10 : ℝ) ^ (Real.logb 10 1 +
          (Real.logb 10 ((512 : ℕ) : ℝ) - Real.logb 10 1) * ((k : ℝ) + 1) / B)⌋₊)
      hs0 he0
  | false =>
    have hs0 : 512 * k / B ≤ 511 := by
      have h1 : 512 * k < 512 * B := by omega
      have := (Nat.div_lt_iff_lt_mul hB).mpr (by omega : 512 * k < 512 * B)
      omega
    have he0 : 512 * (k + 1) / B ≤ 512 := by
      refine Nat.div_le_of_le_mul ?_
      omega
    exact clamp_tail_safe (512 * k / B, 512 * (k + 1) / B) hs0 he0

/-- Witness for `bandRange_safe` at `B = 32`, `k = 0`, logarithmic mode. -/
theorem bandRange_safe_witness :
    ((8 : ℕ) ≤ 32 ∧ (32 : ℕ) ≤ 128 ∧ (0 : ℕ) < 32) ∧
    (1 ≤ (bandRange true 32 0).1 ∧
     (bandRange true 32 0).1 < (bandRange true 32 0).2 ∧
     (bandRange true 32 0).2 ≤ 512 ∧
     1 ≤ (bandRange true 32 0).2 - (bandRange true 32 0).1 ∧
     (∀ i, (bandRange true 32 0).1 ≤ i → i < (bandRange true 32 0).2 → 1 ≤ i ∧ i < 512)) :=
  ⟨⟨by norm_num, by norm_num, by norm_num⟩,
    bandRange_safe true 32 0 (by norm_num) (by norm_num) (by norm_num)⟩

/-! ## Claim C6: non-negativity invariant -/

/-- All observable numeric state is non-negative and the filter parameters
are inside their clamped ranges. -/
structure NonnegState (s : SpectrumState) : Prop where
  smoothing_nonneg : 0 ≤ s.smoothing
  smoothing_le : s.smoothing ≤ 0.99
  decay_nonneg : 0 ≤ s.decayRate
  mags_nonneg : ∀ k, 0 ≤ s.magnitudes.getD k 0
  bands_nonneg : ∀ k, 0 ≤ s.bandValues.getD k 0
  peaks_nonneg : ∀ k, 0 ≤ s.peakValues.getD k 0
  decayAcc_nonneg : ∀ k, 0 ≤ s.peakDecay.getD k 0

theorem getD_set_nonneg (l : List ℝ) (i : ℕ) (x : ℝ)
    (hl : ∀ k, 0 ≤ l.getD k 0) (hx : 0 ≤ x) : ∀ k, 0 ≤ (l.set i x).getD k 0 := by
  intro k
  by_cases hik : i = k
  · subst hik
    by_cases hlen : i < l.length
    · rw [getD_set_eq _ _ _ hlen]
      exact hx
    · rw [List.set_eq_of_length_le (by omega)]
      exact hl i
  · rw [getD_set_ne _ _ _ _ hik]
    exact hl k

theorem rawBandValue_nonneg (s : SpectrumState) (band : ℕ)
    (hm : ∀ k, 0 ≤ s.magnitudes.getD k 0) : 0 ≤ rawBandValue s band := by
  rw [rawBandValue]
  refine div_nonneg ?_ (Nat.cast_nonneg _)
  rw [binSum]
  refine List.sum_nonneg ?_
  intro x hx
  obtain ⟨t, _, rfl⟩ := List.mem_map.mp hx
  exact hm _

theorem updateBand_nonneg (st : SpectrumState) (band : ℕ) (h : NonnegState st) :
    NonnegState (updateBand st band) := by
  obtain ⟨f1, f2, f3, f4, f5, f6, f7, f8, f9, f10⟩ := updateBand_fields st band
  have hα1 : 0 ≤ st.smoothing := h.smoothing_nonneg
  have hα2 : 0 ≤ 1 - st.smoothing := by
    have := h.smoothing_le
    norm_num at this ⊢
    linarith
  have hv : 0 ≤ rawBandValue st band := rawBandValue_nonneg st band h.mags_nonneg
  have hbv : 0 ≤ st.smoothing * st.bandValues.getD band 0 +
      (1 - st.smoothing) * rawBandValue st band :=
    add_nonneg (mul_nonneg hα1 (h.bands_nonneg band)) (mul_nonneg hα2 hv)
  refine
    { smoothing_nonneg := by rw [f6]; exact h.smoothing_nonneg,
      smoothing_le := by rw [f6]; exact h.smoothing_le,
      decay_nonneg := by rw [f5]; exact h.decay_nonneg,
      mags_nonneg := by rw [f3]; exact h.mags_nonneg,
      bands_nonneg := ?_, peaks_nonneg := ?_, decayAcc_nonneg := ?_ } <;>
    simp only [updateBand]
  · split <;>
      exact getD_set_nonneg _ _ _ h.bands_nonneg hbv
  · split
    · exact getD_set_nonneg _ _ _ h.peaks_nonneg hbv
    · exact getD_set_nonneg _ _ _ h.peaks_nonneg (le_max_left 0 _)
  · split
    · exact getD_set_nonneg _ _ _ h.decayAcc_nonneg (le_refl 0)
    · exact getD_set_nonneg _ _ _ h.decayAcc_nonneg
        (add_nonneg (h.decayAcc_nonneg band) h.decay_nonneg)

theorem resizeFill_getD_nonneg (l : List ℝ) (n : ℕ) (hl : ∀ k, 0 ≤ l.getD k 0) :
    ∀ k, 0 ≤ (resizeFill l n).getD k 0 := by
  intro k
  rw [resizeFill_getD]
  split
  · exact hl k
  · exact le_refl 0

theorem resizeBands_nonneg (s : SpectrumState) (h : NonnegState s) :
    NonnegState (resizeBands s) := by
  rw [resizeBands]
  split
  · exact
      { smoothing_nonneg := h.smoothing_nonneg,
        smoothing_le := h.smoothing_le,
        decay_nonneg := h.decay_nonneg,
        mags_nonneg := h.mags_nonneg,
        bands_nonneg := resizeFill_getD_nonneg _ _ h.bands_nonneg,
        peaks_nonneg := resizeFill_getD_nonneg _ _ h.peaks_nonneg,
        decayAcc_nonneg := resizeFill_getD_nonneg _ _ h.decayAcc_nonneg }
  · exact h

theorem computeFFT_nonneg (s : SpectrumState) (h : NonnegState s) :
    NonnegState (computeFFT s) := by
  obtain ⟨c1, c2, c3, c4, c5, c6, c7, c8, c9⟩ := computeFFT_fields s
  refine
    { smoothing_nonneg := by rw [c8]; exact h.smoothing_nonneg,
      smoothing_le := by rw [c8]; exact h.smoothing_le,
      decay_nonneg := by rw [c7]; exact h.decay_nonneg,
      mags_nonneg := ?_,
      bands_nonneg := by rw [c3]; exact h.bands_nonneg,
      peaks_nonneg := by rw [c4]; exact h.peaks_nonneg,
      decayAcc_nonneg := by rw [c5]; exact h.decayAcc_nonneg }
  intro k
  rw [computeFFT_magnitudes]
  by_cases hk : k < 512
  · rw [getD_map_range _ _ _ _ hk]
    exact mul_nonneg (AbsoluteValue.nonneg Complex.abs _) (by norm_num)
  · rw [List.getD_eq_default _ _ (by simp; omega)]

theorem ingest_nonneg (s : SpectrumState) (xs : List ℝ) (h : NonnegState s) :
    NonnegState (ingest s xs) := by
  obtain ⟨i1, i2, i3, i4, i5, i6, i7, i8⟩ := ingest_fields s xs
  exact
    { smoothing_nonneg := by rw [i7]; exact h.smoothing_nonneg,
      smoothing_le := by rw [i7]; exact h.smoothing_le,
      decay_nonneg := by rw [i6]; exact h.decay_nonneg,
      mags_nonneg := by rw [i1]; exact h.mags_nonneg,
      bands_nonneg := by rw [i2]; exact h.bands_nonneg,
      peaks_nonneg := by rw [i3]; exact h.peaks_nonneg,
      decayAcc_nonneg := by rw [i4]; exact h.decayAcc_nonneg }

theorem pushSamples_nonneg (s : SpectrumState) (xs : List ℝ) (h : NonnegState s) :
    NonnegState (pushSamples s xs) := by
  rw [pushSamples_def, updateBands_def]
  exact foldl_preserves NonnegState updateBand (fun c a hc => updateBand_nonneg c a hc) _ _
    (resizeBands_nonneg _ (computeFFT_nonneg _ (ingest_nonneg s xs h)))

/-- C6. Non-negativity is an invariant preserved by every `pushSamples` call:
starting from the all-zero construction state with the smoothing factor and
decay rate set through their clamping setters, every entry of the magnitude,
smoothed band-value, and peak-value sequences is non-negative after every
call.  (Over the exact real arithmetic of this embedding all values are
trivially finite.) -/
theorem pushSamples_nonneg_invariant (a r : ℝ) (pushes : List (List ℝ)) (k : ℕ) :
    0 ≤ ((pushes.foldl pushSamples
        (setSmoothing (setDecayRate initState r) a)).magnitudes.getD k 0) ∧
    0 ≤ ((pushes.foldl pushSamples
        (setSmoothing (setDecayRate initState r) a)).bandValues.getD k 0) ∧
    0 ≤ ((pushes.foldl pushSamples
        (setSmoothing (setDecayRate initState r) a)).peakValues.getD k 0) := by
  have hz : ∀ n q, 0 ≤ (List.replicate n (0 : ℝ)).getD q 0 := by
    intro n q
    rw [getD_replicate]
    split <;> norm_num
  have h0 : NonnegState (setSmoothing (setDecayRate initState r) a) :=
    { smoothing_nonneg := by
        show (0 : ℝ) ≤ min (max a 0) 0.99
        exact le_min (le_max_right a 0) (by norm_num),
      smoothing_le := by
        show min (max a 0) 0.99 ≤ 0.99
        exact min_le_right _ _,
      decay_nonneg := by
        show (0 : ℝ) ≤ min (max r 0.01) 1
        refine le_min ?_ (by norm_num)
        exact le_trans (by norm_num : (0 : ℝ) ≤ 0.01) (le_max_right r 0.01),
      mags_nonneg := fun q => hz 512 q,
      bands_nonneg := fun q => hz 32 q,
      peaks_nonneg := fun q => hz 32 q,
      decayAcc_nonneg := fun q => hz 32 q }
  have h := foldl_preserves NonnegState pushSamples
    (fun st xs hst => pushSamples_nonneg st xs hst) pushes _ h0
  exact ⟨h.mags_nonneg k, h.bands_nonneg k, h.peaks_nonneg k⟩

/-! ## Claim C10: the two FFT implementations agree -/

theorem foldl_congr_mem {α β : Type} (l : List α) (f g : β → α → β) (b : β)
    (h : ∀ x ∈ l, ∀ acc, f acc x = g acc x) : l.foldl f b = l.foldl g b := by
  induction l generalizing b with
  | nil => rfl
  | cons x xs ih =>
    rw [List.foldl_cons, List.foldl_cons, h x (by simp)]
    exact ih _ (fun y hy acc => h y (by simp [hy]) acc)

theorem mk_cos_sin (θ : ℝ) :
    (⟨Real.cos θ, Real.sin θ⟩ : ℂ) = Complex.exp ((θ : ℂ) * Complex.I) := by
  rw [Complex.exp_mul_I]
  apply Complex.ext <;> simp [Complex.cos_ofReal_re, Complex.sin_ofReal_re]

theorem wn_pow (len j : ℕ) :
    (⟨Real.cos (-2 * Real.pi / len), Real.sin (-2 * Real.pi / len)⟩ : ℂ) ^ j =
      (⟨Real.cos (-2 * Real.pi / len * j), Real.sin (-2 * Real.pi / len * j)⟩ : ℂ) := by
  rw [mk_cos_sin, mk_cos_sin, ← Complex.exp_nat_mul]
  congr 1
  push_cast
  ring

theorem twiddle_table_getD (n s j : ℕ) (hs : s < fftBits n) (hj : j < 2 ^ (s + 1) / 2) :
    ((precomputeTwiddleFactors n).getD s []).getD j 0 =
      (⟨Real.cos (-2 * Real.pi / (2 ^ (s + 1) : ℕ) * j),
        Real.sin (-2 * Real.pi / (2 ^ (s + 1) : ℕ) * j)⟩ : ℂ) := by
  rw [precomputeTwiddleFactors, getD_map_range _ _ _ _ hs]
  exact getD_map_range _ _ _ _ hj

theorem naiveInner_pair (i halfLen : ℕ) (wn : ℂ) (d : ℕ → ℂ) :
    ∀ cnt w0,
      ((List.range cnt).foldl
        (fun (p : (ℕ → ℂ) × ℂ) j => (butterfly p.1 (i + j) (i + j + halfLen) p.2, p.2 * wn))
        (d, w0)) =
      ((List.range cnt).foldl
        (fun e j => butterfly e (i + j) (i + j + halfLen) (w0 * wn ^ j)) d,
       w0 * wn ^ cnt) := by
  intro cnt
  induction cnt with
  | zero => intro w0; simp
  | succ c ih =>
    intro w0
    rw [List.range_succ, List.foldl_append, List.foldl_append, ih w0]
    simp only [List.foldl_cons, List.foldl_nil]
    refine Prod.ext rfl ?_
    show w0 * wn ^ c * wn = w0 * wn ^ (c + 1)
    rw [pow_succ]
    ring

theorem naiveInner_fst (i halfLen : ℕ) (wn : ℂ) (d : ℕ → ℂ) (cnt : ℕ) :
    ((List.range cnt).foldl
        (fun (p : (ℕ → ℂ) × ℂ) j => (butterfly p.1 (i + j) (i + j + halfLen) p.2, p.2 * wn))
        (d, 1)).1 =
      (List.range cnt).foldl
        (fun e j => butterfly e (i + j) (i + j + halfLen) ((1 : ℂ) * wn ^ j)) d := by
  rw [naiveInner_pair i halfLen wn d cnt 1]

/-- Generic equivalence of the two FFT loops, for any transform size. -/
theorem fft_eq_fftOptimized_generic (n : ℕ) (a : ℕ → ℂ) :
    fftOptimized n (bitReverseLUT n) (precomputeTwiddleFactors n) a = fft n a := by
  by_cases hn : n ≤ 1
  · simp only [fft, fftOptimized, if_pos hn]
  · simp only [fft, fftOptimized, if_neg hn]
    have hperm :
        bitRevPermute n (bitReverseLUT n) a =
          (List.range n).foldl
            (fun d i =>
              let j := reverseBits i (fftBits n)
              if i < j then Function.update (Function.update d i (d j)) j (d i) else d)
            a := by
      rw [bitRevPermute]
      apply foldl_congr_mem
      intro i hi acc
      have hlut : (bitReverseLUT n).getD i 0 = reverseBits i (fftBits n) := by
        rw [bitReverseLUT]
        exact getD_map_range _ _ _ _ (List.mem_range.mp hi)
      simp only [hlut]
    rw [hperm]
    apply foldl_congr_mem
    intro s hs d
    have hsb : s < fftBits n := List.mem_range.mp hs
    rw [blockPass]
    apply foldl_congr_mem
    intro i _ e
    rw [innerPass, naiveInner_fst]
    apply foldl_congr_mem
    intro j hj acc
    rw [one_mul, wn_pow, twiddle_table_getD n s j hsb (List.mem_range.mp hj)]

/-- C10. Over exact complex arithmetic the two FFT implementations are
equivalent: for every input array of length `N = 1024`, `fftOptimized` with
the precomputed bit-reversal table and twiddle tables returns exactly the
same output as the naive `fft`, which recomputes the bit-reversed indices and
accumulates the twiddle factor by repeated multiplication per stage. -/
theorem fft_eq_fftOptimized (a : ℕ → ℂ) (q : ℕ) :
    fftOptimized 1024 (bitReverseLUT 1024) (precomputeTwiddleFactors 1024) a q =
      fft 1024 a q :=
  congrFun (fft_eq_fftOptimized_generic 1024 a) q

/-! ## Claim C3: `fftOptimized` computes the DFT

The proof follows the classical invariant of the iterative decimation-in-time
FFT: after the bit-reversal permutation and the stages of length `2, …, 2^s`,
block `b` of length `2^s` holds the `2^s`-point DFT of the input subsequence
with stride `2^(m−s)` and offset `revSpec (m−s) b`. -/

/-- `exp(θ·i)` for real `θ`. -/
noncomputable def expI (θ : ℝ) : ℂ := Complex.exp ((θ : ℂ) * Complex.I)

theorem expI_add (x y : ℝ) : expI (x + y) = expI x * expI y := by
  rw [expI, expI, expI, ← Complex.exp_add]
  congr 1
  push_cast
  ring

theorem expI_neg_two_pi_nat (t : ℕ) : expI (-(2 * Real.pi * t)) = 1 := by
  rw [expI]
  have harg : (((-(2 * Real.pi * t) : ℝ)) : ℂ) * Complex.I =
      ((-(t : ℤ) : ℤ) : ℂ) * (2 * (Real.pi : ℂ) * Complex.I) := by
    push_cast
    ring
  rw [harg, Complex.exp_int_mul_two_pi_mul_I]

theorem expI_neg_pi : expI (-Real.pi) = -1 := by
  rw [expI]
  have harg : (((-Real.pi : ℝ)) : ℂ) * Complex.I = -((Real.pi : ℂ) * Complex.I) := by
    push_cast
    ring
  rw [harg, Complex.exp_neg, Complex.exp_pi_mul_I]
  norm_num

theorem twFn_expI (L k : ℕ) : twFn L k = expI ((-2) * Real.pi * k / L) := rfl

theorem twFn_zero_arg (L : ℕ) : twFn L 0 = 1 := by
  rw [twFn_expI]
  have : ((-2) * Real.pi * (0 : ℕ) / L : ℝ) = 0 := by
    push_cast
    ring
  rw [this, expI]
  simp

theorem tw_even (h j t : ℕ) (hh : 0 < h) :
    twFn (2 * h) (j * (2 * t)) = twFn h (j * t) := by
  rw [twFn_expI, twFn_expI]
  congr 1
  have hne : ((h : ℝ)) ≠ 0 := by positivity
  push_cast
  field_simp
  ring

theorem tw_even_shift (h j t : ℕ) (hh : 0 < h) :
    twFn (2 * h) ((j + h) * (2 * t)) = twFn h (j * t) := by
  rw [twFn_expI, twFn_expI]
  have hne : ((h : ℝ)) ≠ 0 := by positivity
  have harg : ((-2) * Real.pi * ((j + h) * (2 * t) : ℕ) / ((2 * h : ℕ) : ℝ) : ℝ) =
      (-2) * Real.pi * (j * t : ℕ) / (h : ℝ) + -(2 * Real.pi * t) := by
    push_cast
    field_simp
    ring
  rw [harg, expI_add, expI_neg_two_pi_nat, mul_one]

theorem tw_odd (h j t : ℕ) (hh : 0 < h) :
    twFn (2 * h) (j * (2 * t + 1)) = twFn (2 * h) j * twFn h (j * t) := by
  rw [twFn_expI, twFn_expI, twFn_expI]
  have hne : ((h : ℝ)) ≠ 0 := by positivity
  have harg : ((-2) * Real.pi * (j * (2 * t + 1) : ℕ) / ((2 * h : ℕ) : ℝ) : ℝ) =
      (-2) * Real.pi * (j : ℕ) / ((2 * h : ℕ) : ℝ) +
        (-2) * Real.pi * (j * t : ℕ) / (h : ℝ) := by
    push_cast
    field_simp
    ring
  rw [harg, expI_add]

theorem tw_odd_shift (h j t : ℕ) (hh : 0 < h) :
    twFn (2 * h) ((j + h) * (2 * t + 1)) = -(twFn (2 * h) j * twFn h (j * t)) := by
  rw [twFn_expI, twFn_expI, twFn_expI]
  have hne : ((h : ℝ)) ≠ 0 := by positivity
  have harg : ((-2) * Real.pi * ((j + h) * (2 * t + 1) : ℕ) / ((2 * h : ℕ) : ℝ) : ℝ) =
      ((-2) * Real.pi * (j : ℕ) / ((2 * h : ℕ) : ℝ) +
        (-2) * Real.pi * (j * t : ℕ) / (h : ℝ)) + (-(2 * Real.pi * t) + -Real.pi) := by
    push_cast
    field_simp
    ring
  rw [harg, expI_add, expI_add, expI_add, expI_neg_two_pi_nat, expI_neg_pi]
  ring

theorem sum_range_even_odd (h : ℕ) (f : ℕ → ℂ) :
    ∑ u ∈ Finset.range (2 * h), f u =
      (∑ t ∈ Finset.range h, f (2 * t)) + ∑ t ∈ Finset.range h, f (2 * t + 1) := by
  induction h with
  | zero => simp
  | succ c ih =>
    have h2 : 2 * (c + 1) = 2 * c + 1 + 1 := by ring
    rw [h2, Finset.sum_range_succ, Finset.sum_range_succ, Finset.sum_range_succ,
      Finset.sum_range_succ, ih]
    ring

theorem bitRevPermute_inv (m : ℕ) (lut : List ℕ)
    (hlut : ∀ i, i < 2 ^ m → lut.getD i 0 = reverseBits i m) (a : ℕ → ℂ) :
    ∀ k, k ≤ 2 ^ m → ∀ q,
      ((List.range k).foldl
        (fun d i =>
          let j := lut.getD i 0
          if i < j then Function.update (Function.update d i (d j)) j (d i) else d) a) q =
      if q < 2 ^ m ∧ (q < k ∨ reverseBits q m < k) then a (reverseBits q m) else a q := by
  intro k
  induction k with
  | zero =>
    intro _ q
    simp
  | succ k ih =>
    intro hk q
    have ihm := ih (by omega)
    rw [List.range_succ, List.foldl_append]
    simp only [List.foldl_cons, List.foldl_nil]
    rw [hlut k (by omega)]
    have hrlt : reverseBits k m < 2 ^ m := reverseBits_lt k m
    have hrr : reverseBits (reverseBits k m) m = k := reverseBits_reverseBits k m (by omega)
    by_cases hkr : k < reverseBits k m
    · rw [if_pos hkr]
      by_cases hq1 : q = reverseBits k m
      · subst hq1
        rw [Function.update_same, ihm k, if_neg (by omega),
          if_pos ⟨hrlt, Or.inr (by omega)⟩, hrr]
      · rw [Function.update_noteq hq1]
        by_cases hq2 : q = k
        · subst hq2
          rw [Function.update_same, ihm (reverseBits q m), if_neg (by omega),
            if_pos ⟨(by omega : q < 2 ^ m), Or.inl (by omega)⟩]
        · rw [Function.update_noteq hq2, ihm q]
          by_cases hqn : q < 2 ^ m
          · have hfix : reverseBits q m ≠ k := fun hrq =>
              hq1 (by rw [← reverseBits_reverseBits q m hqn, hrq])
            by_cases hc : q < k ∨ reverseBits q m < k
            · rw [if_pos ⟨hqn, hc⟩, if_pos ⟨hqn, by omega⟩]
            · rw [if_neg (by omega), if_neg (by omega)]
          · rw [if_neg (fun hcon => hqn hcon.1), if_neg (fun hcon => hqn hcon.1)]
    · rw [if_neg hkr, ihm q]
      by_cases hqn : q < 2 ^ m
      · by_cases hq2 : q = k
        · subst hq2
          by_cases hreq : reverseBits q m = q
          · rw [if_neg (by omega), if_pos ⟨hqn, Or.inl (by omega)⟩, hreq]
          · have hlt : reverseBits q m < q := by omega
            rw [if_pos ⟨hqn, Or.inr hlt⟩, if_pos ⟨hqn, Or.inl (by omega)⟩]
        · by_cases hrq : reverseBits q m = k
          · have hqr : q = reverseBits k m := by
              rw [← hrq, reverseBits_reverseBits q m hqn]
            have hlt : q < k := by omega
            rw [if_pos ⟨hqn, Or.inl hlt⟩, if_pos ⟨hqn, Or.inl (by omega)⟩]
          · by_cases hc : q < k ∨ reverseBits q m < k
            · rw [if_pos ⟨hqn, hc⟩, if_pos ⟨hqn, by omega⟩]
            · rw [if_neg (by omega), if_neg (by omega)]
      · rw [if_neg (fun hcon => hqn hcon.1), if_neg (fun hcon => hqn hcon.1)]

theorem bitRevPermute_spec (m : ℕ) (lut : List ℕ)
    (hlut : ∀ i, i < 2 ^ m → lut.getD i 0 = reverseBits i m) (a : ℕ → ℂ) :
    bitRevPermute (2 ^ m) lut a =
      fun q => if q < 2 ^ m then a (reverseBits q m) else a q := by
  funext q
  rw [bitRevPermute]
  rw [bitRevPermute_inv m lut hlut a (2 ^ m) (le_refl _) q]
  by_cases hq : q < 2 ^ m
  · rw [if_pos ⟨hq, Or.inl hq⟩, if_pos hq]
  · rw [if_neg (by omega), if_neg hq]

theorem butterfly_at_fst (D : ℕ → ℂ) (p q : ℕ) (w : ℂ) (hpq : p ≠ q) :
    butterfly D p q w p = D p + w * D q := by
  simp only [butterfly]
  rw [Function.update_noteq hpq, Function.update_same]

theorem butterfly_at_snd (D : ℕ → ℂ) (p q : ℕ) (w : ℂ) :
    butterfly D p q w q = D p - w * D q := by
  simp only [butterfly]
  rw [Function.update_same]

theorem butterfly_other (D : ℕ → ℂ) (p q r : ℕ) (w : ℂ) (h1 : r ≠ p) (h2 : r ≠ q) :
    butterfly D p q w r = D r := by
  simp only [butterfly]
  rw [Function.update_noteq h2, Function.update_noteq h1]

theorem innerPass_succ (i halfLen cnt : ℕ) (f : ℕ → ℂ) (d : ℕ → ℂ) :
    innerPass i halfLen f (cnt + 1) d =
      butterfly (innerPass i halfLen f cnt d) (i + cnt) (i + cnt + halfLen) (f cnt) := by
  rw [innerPass, innerPass, List.range_succ, List.foldl_append]
  simp only [List.foldl_cons, List.foldl_nil]

theorem innerPass_spec (i halfLen : ℕ) (f : ℕ → ℂ) (d : ℕ → ℂ) :
    ∀ cnt, cnt ≤ halfLen →
      (∀ j, j < cnt → innerPass i halfLen f cnt d (i + j) =
          d (i + j) + f j * d (i + j + halfLen)) ∧
      (∀ j, j < cnt → innerPass i halfLen f cnt d (i + j + halfLen) =
          d (i + j) - f j * d (i + j + halfLen)) ∧
      (∀ q, (q < i ∨ (i + cnt ≤ q ∧ q < i + halfLen) ∨ i + halfLen + cnt ≤ q) →
        innerPass i halfLen f cnt d q = d q) := by
  intro cnt
  induction cnt with
  | zero =>
    intro _
    refine ⟨fun j hj => absurd hj (by omega), fun j hj => absurd hj (by omega), fun q _ => ?_⟩
    rfl
  | succ cnt ih =>
    intro hcnt
    obtain ⟨iha, ihb, ihc⟩ := ih (by omega)
    have hrd1 : innerPass i halfLen f cnt d (i + cnt) = d (i + cnt) :=
      ihc (i + cnt) (by omega)
    have hrd2 : innerPass i halfLen f cnt d (i + cnt + halfLen) = d (i + cnt + halfLen) :=
      ihc (i + cnt + halfLen) (by omega)
    rw [innerPass_succ]
    refine ⟨?_, ?_, ?_⟩
    · intro j hj
      by_cases hjc : j = cnt
      · subst hjc
        rw [butterfly_at_fst _ _ _ _ (by omega), hrd1, hrd2]
      · rw [butterfly_other _ _ _ _ _ (by omega) (by omega)]
        exact iha j (by omega)
    · intro j hj
      by_cases hjc : j = cnt
      · subst hjc
        rw [butterfly_at_snd, hrd1, hrd2]
      · rw [butterfly_other _ _ _ _ _ (by omega) (by omega)]
        exact ihb j (by omega)
    · intro q hq
      rw [butterfly_other _ _ _ _ _ (by omega) (by omega)]
      exact ihc q (by omega)

theorem blockFold_spec (len halfLen : ℕ) (hlen : len = 2 * halfLen) (hh : 0 < halfLen)
    (f : ℕ → ℂ) (d : ℕ → ℂ) :
    ∀ C,
      (∀ b, b < C → ∀ j, j < halfLen →
        (((List.range C).map (· * len)).foldl
            (fun e i => innerPass i (len / 2) f (len / 2) e) d) (b * len + j) =
          d (b * len + j) + f j * d (b * len + j + halfLen) ∧
        (((List.range C).map (· * len)).foldl
            (fun e i => innerPass i (len / 2) f (len / 2) e) d) (b * len + j + halfLen) =
          d (b * len + j) - f j * d (b * len + j + halfLen)) ∧
      (∀ q, C * len ≤ q →
        (((List.range C).map (· * len)).foldl
            (fun e i => innerPass i (len / 2) f (len / 2) e) d) q = d q) := by
  have h2 : len / 2 = halfLen := by omega
  intro C
  induction C with
  | zero =>
    exact ⟨fun b hb => absurd hb (by omega), fun q _ => rfl⟩
  | succ C ih =>
    obtain ⟨iha, ihc⟩ := ih
    set F := ((List.range C).map (· * len)).foldl
      (fun e i => innerPass i (len / 2) f (len / 2) e) d with hF
    have hstep :
        ((List.range (C + 1)).map (· * len)).foldl
            (fun e i => innerPass i (len / 2) f (len / 2) e) d =
          innerPass (C * len) halfLen f halfLen F := by
      rw [hF, List.range_succ, List.map_append, List.foldl_append]
      simp only [List.map_cons, List.map_nil, List.foldl_cons, List.foldl_nil]
      rw [h2]
    rw [hstep]
    obtain ⟨pa, pb, pc⟩ := innerPass_spec (C * len) halfLen f F halfLen (le_refl _)
    have hCsucc : (C + 1) * len = C * len + len := by ring
    refine ⟨?_, ?_⟩
    · intro b hb j hj
      by_cases hbc : b = C
      · subst hbc
        have e1 := pa j hj
        have e2 := pb j hj
        rw [ihc (b * len + j) (by omega), ihc (b * len + j + halfLen) (by omega)] at e1 e2
        exact ⟨e1, e2⟩
      · have hble : (b + 1) * len ≤ C * len := Nat.mul_le_mul_right len (by omega)
        have hbsucc : (b + 1) * len = b * len + len := by ring
        obtain ⟨q1, q2⟩ := iha b (by omega) j hj
        constructor
        · rw [pc (b * len + j) (by omega), q1]
        · rw [pc (b * len + j + halfLen) (by omega), q2]
    · intro q hq
      rw [pc q (by omega), ihc q (by omega)]

/-- The `L`-point DFT of the decimated subsequence of `x` with the given
stride and offset, evaluated at output index `j`. -/
noncomputable def subDFT (L stride o : ℕ) (x : ℕ → ℂ) (j : ℕ) : ℂ :=
  ∑ t ∈ Finset.range L, x (t * stride + o) * twFn L (j * t)

theorem subDFT_combine_fst (h stride o j : ℕ) (hh : 0 < h) (x : ℕ → ℂ) :
    subDFT (2 * h) stride o x j =
      subDFT h (2 * stride) o x j +
        twFn (2 * h) j * subDFT h (2 * stride) (stride + o) x j := by
  rw [subDFT, subDFT, subDFT,
    sum_range_even_odd h (fun u => x (u * stride + o) * twFn (2 * h) (j * u))]
  congr 1
  · refine Finset.sum_congr rfl ?_
    intro t _
    rw [tw_even h j t hh]
    congr 2
    ring
  · rw [Finset.mul_sum]
    refine Finset.sum_congr rfl ?_
    intro t _
    rw [tw_odd h j t hh]
    have hidx : (2 * t + 1) * stride + o = t * (2 * stride) + (stride + o) := by ring
    rw [hidx]
    ring

theorem subDFT_combine_snd (h stride o j : ℕ) (hh : 0 < h) (x : ℕ → ℂ) :
    subDFT (2 * h) stride o x (j + h) =
      subDFT h (2 * stride) o x j -
        twFn (2 * h) j * subDFT h (2 * stride) (stride + o) x j := by
  rw [subDFT, subDFT, subDFT,
    sum_range_even_odd h (fun u => x (u * stride + o) * twFn (2 * h) ((j + h) * u))]
  rw [sub_eq_add_neg]
  congr 1
  · refine Finset.sum_congr rfl ?_
    intro t _
    rw [tw_even_shift h j t hh]
    congr 2
    ring
  · rw [Finset.mul_sum, ← Finset.sum_neg_distrib]
    refine Finset.sum_congr rfl ?_
    intro t _
    rw [tw_odd_shift h j t hh]
    have hidx : (2 * t + 1) * stride + o = t * (2 * stride) + (stride + o) := by ring
    rw [hidx]
    ring

theorem stage_inv (m : ℕ) (x : ℕ → ℂ) (T : ℕ → ℕ → ℂ)
    (hT : ∀ s j, s < m → j < 2 ^ s → T s j = twFn (2 ^ (s + 1)) j) :
    ∀ s, s ≤ m → ∀ b, b < 2 ^ (m - s) → ∀ j, j < 2 ^ s →
      ((List.range s).foldl (fun d t => blockPass (2 ^ (t + 1)) (T t) (2 ^ m) d)
        (fun q => if q < 2 ^ m then x (reverseBits q m) else x q)) (b * 2 ^ s + j) =
      subDFT (2 ^ s) (2 ^ (m - s)) (revSpec (m - s) b) x j := by
  intro s
  induction s with
  | zero =>
    intro _ b hb j hj
    have h1 : (2 : ℕ) ^ 0 = 1 := pow_zero 2
    have hj0 : j = 0 := by omega
    subst hj0
    have hb' : b < 2 ^ m := by
      have hms : m - 0 = m := by omega
      rw [hms] at hb
      exact hb
    simp only [List.range_zero, List.foldl_nil]
    have hpos : b * 2 ^ 0 + 0 = b := by
      rw [h1]
      omega
    rw [hpos, if_pos hb', subDFT, h1, Finset.sum_range_one, Nat.sub_zero,
      reverseBits_eq_revSpec]
    have harg : (0 : ℕ) * 0 = 0 := rfl
    rw [harg, twFn_zero_arg, mul_one]
    congr 1
    omega
  | succ s ih =>
    intro hs b hb j hj
    have hsm : s < m := by omega
    have hpow2 : (2 : ℕ) ^ (s + 1) = 2 * 2 ^ s := by
      rw [pow_succ]
      ring
    have hms2 : m - (s + 1) = m - s - 1 := by omega
    have hstride : (2 : ℕ) ^ (m - s) = 2 * 2 ^ (m - s - 1) := by
      have hp := pow_succ 2 (m - s - 1)
      have he : m - s - 1 + 1 = m - s := by omega
      rw [he] at hp
      omega
    rw [hms2] at hb
    have hstep :
        (List.range (s + 1)).foldl (fun d t => blockPass (2 ^ (t + 1)) (T t) (2 ^ m) d)
          (fun q => if q < 2 ^ m then x (reverseBits q m) else x q) =
        blockPass (2 ^ (s + 1)) (T s) (2 ^ m)
          ((List.range s).foldl (fun d t => blockPass (2 ^ (t + 1)) (T t) (2 ^ m) d)
            (fun q => if q < 2 ^ m then x (reverseBits q m) else x q)) := by
      rw [List.range_succ, List.foldl_append]
      simp only [List.foldl_cons, List.foldl_nil]
    rw [hstep]
    set A := (List.range s).foldl (fun d t => blockPass (2 ^ (t + 1)) (T t) (2 ^ m) d)
      (fun q => if q < 2 ^ m then x (reverseBits q m) else x q) with hA
    rw [blockPass]
    obtain ⟨ba, _⟩ := blockFold_spec (2 ^ (s + 1)) (2 ^ s) hpow2 (by positivity) (T s) A
      (2 ^ m / 2 ^ (s + 1))
    have hblocks : 2 ^ m / 2 ^ (s + 1) = 2 ^ (m - s - 1) := by
      rw [Nat.pow_div (by omega) (by norm_num)]
      congr 1
    have hbC : b < 2 ^ m / 2 ^ (s + 1) := by
      rw [hblocks]
      exact hb
    have hb2 : 2 * b < 2 ^ (m - s) := by
      rw [hstride]
      omega
    have hb2' : 2 * b + 1 < 2 ^ (m - s) := by
      rw [hstride]
      omega
    have he : m - s - 1 + 1 = m - s := by omega
    have hrev1 : revSpec (m - s) (2 * b) = revSpec (m - s - 1) b := by
      have h := revSpec_two_mul (m - s - 1) b
      rw [he] at h
      exact h
    have hrev2 : revSpec (m - s) (2 * b + 1) = 2 ^ (m - s - 1) + revSpec (m - s - 1) b := by
      have h := revSpec_two_mul_add_one (m - s - 1) b
      rw [he] at h
      exact h
    by_cases hjh : j < 2 ^ s
    · obtain ⟨e1, _⟩ := ba b hbC j hjh
      rw [e1]
      have hp1 : b * 2 ^ (s + 1) + j = 2 * b * 2 ^ s + j := by
        rw [hpow2]
        ring
      have hp2 : b * 2 ^ (s + 1) + j + 2 ^ s = (2 * b + 1) * 2 ^ s + j := by
        rw [hpow2]
        ring
      rw [hp2, hp1, ih (by omega) (2 * b) hb2 j hjh, ih (by omega) (2 * b + 1) hb2' j hjh,
        hT s j hsm hjh, hrev1, hrev2, hms2, hpow2,
        subDFT_combine_fst (2 ^ s) (2 ^ (m - s - 1)) (revSpec (m - s - 1) b) j
          (by positivity) x, hstride]
    · have hj0 : j - 2 ^ s < 2 ^ s := by
        rw [hpow2] at hj
        omega
      have hjeq : j = (j - 2 ^ s) + 2 ^ s := by
        rw [hpow2] at hj
        omega
      obtain ⟨_, e2⟩ := ba b hbC (j - 2 ^ s) hj0
      have hpos : b * 2 ^ (s + 1) + j = b * 2 ^ (s + 1) + (j - 2 ^ s) + 2 ^ s := by omega
      rw [hpos, e2]
      have hp1 : b * 2 ^ (s + 1) + (j - 2 ^ s) = 2 * b * 2 ^ s + (j - 2 ^ s) := by
        rw [hpow2]
        ring
      have hp2 : b * 2 ^ (s + 1) + (j - 2 ^ s) + 2 ^ s = (2 * b + 1) * 2 ^ s + (j - 2 ^ s) := by
        rw [hpow2]
        ring
      rw [hp2, hp1, ih (by omega) (2 * b) hb2 (j - 2 ^ s) hj0,
        ih (by omega) (2 * b + 1) hb2' (j - 2 ^ s) hj0,
        hT s (j - 2 ^ s) hsm hj0, hrev1, hrev2, hms2]
      conv_rhs => rw [hjeq]
      rw [hpow2,
        subDFT_combine_snd (2 ^ s) (2 ^ (m - s - 1)) (revSpec (m - s - 1) b) (j - 2 ^ s)
          (by positivity) x, hstride]

/-- C3. Over exact complex arithmetic, for every input array of length
`N = 1024`, `fftOptimized` (bit-reversal permutation via the precomputed
table, then the butterfly stages with the precomputed twiddle tables)
computes the discrete Fourier transform: output bin `k` equals
`∑ n, input[n]·exp(−2πi·k·n/N)`. -/
theorem fftOptimized_computes_dft (x : ℕ → ℂ) (k : ℕ) (hk : k < 1024) :
    fftOptimized 1024 (bitReverseLUT 1024) (precomputeTwiddleFactors 1024) x k =
      dftSpec 1024 x k := by
  have h1024 : (1024 : ℕ) = 2 ^ 10 := by norm_num
  have hbits : fftBits 1024 = 10 := by decide
  rw [fftOptimized, if_neg (by norm_num : ¬ (1024 : ℕ) ≤ 1), hbits, h1024]
  have hlut : ∀ i, i < 2 ^ 10 → (bitReverseLUT (2 ^ 10)).getD i 0 = reverseBits i 10 := by
    intro i hi
    rw [bitReverseLUT, getD_map_range _ _ _ _ hi, fftBits_two_pow]
  rw [bitRevPermute_spec 10 (bitReverseLUT (2 ^ 10)) hlut x]
  have hT : ∀ s j, s < 10 → j < 2 ^ s →
      ((precomputeTwiddleFactors (2 ^ 10)).getD s []).getD j 0 = twFn (2 ^ (s + 1)) j := by
    intro s j hs hj
    have hhalf : 2 ^ (s + 1) / 2 = 2 ^ s := by
      rw [pow_succ]
      omega
    rw [twiddle_table_getD (2 ^ 10) s j (by rw [fftBits_two_pow]; exact hs) (by omega)]
    rw [mk_cos_sin, twFn_expI, expI]
    congr 1
    push_cast
    ring
  have hmain := stage_inv 10 x
    (fun s j => ((precomputeTwiddleFactors (2 ^ 10)).getD s []).getD j 0) hT 10
    (le_refl 10) 0 (by norm_num) k (by rw [← h1024]; exact hk)
  simp only [zero_mul, zero_add, Nat.sub_self, pow_zero] at hmain
  rw [hmain, subDFT, dftSpec]
  refine Finset.sum_congr rfl ?_
  intro t ht
  have hx : t * 1 + revSpec 0 0 = t := by
    simp [revSpec]
  rw [hx, twFn_expI, expI]
  congr 1
  push_cast
  ring

/-- Witness for `fftOptimized_computes_dft` at `k = 0` on the zero input. -/
theorem fftOptimized_computes_dft_witness :
    (0 : ℕ) < 1024 ∧
    fftOptimized 1024 (bitReverseLUT 1024) (precomputeTwiddleFactors 1024) (fun _ => 0) 0 =
      dftSpec 1024 (fun _ => 0) 0 :=
  ⟨by norm_num, fftOptimized_computes_dft (fun _ => 0) 0 (by norm_num)⟩
